import Mathlib

/-!
Verification of the blot-bot core library (host-side controller for a
belt-driven pen plotter) against its design specification.

The development shallowly embeds the relevant Rust source:

* `src/instruction/mod.rs` — the instruction byte grammar
  (`get_next_instruction_bounds`, `is_stream_valid`), chunking
  (`InstructionSet::get_buffer_bounds` with its `OnceCell` memoisation),
  and decoding (`parse_to_numerical_steps`);
* `src/client/state.rs` — the greeting handshake decision of
  `ClientState::new` (`read_header`, `bytes_to_u16`, `bytes_to_u32`) and
  the pull-driven `listen` loop;
* `src/hardware/math.rs`, `src/preview/belts.rs`, `src/drawing/mod.rs` —
  the kinematics (`cartesian_to_belt`, `belt_to_cartesian`,
  `steps_per_mm`), the belt accumulator and the `DrawSurface` encoder
  (`sample_xy`, `pop_sample`).

Bytes are modelled as natural numbers (all byte values handled by the
code fit in a `u8`), machine integers as `Int` with explicit
two's-complement conversion, and `f64` values as real numbers.  Rust
`loop`s are made structural with an explicit fuel argument; the fuel
supplied by the top-level wrappers is generous and is proved sufficient
in the theorems below.  A Rust panic caused by an out-of-bounds index is
modelled as an explicit `panicOOB` result value.
-/

namespace BlotBot

/-- The error enum of `src/instruction/error.rs` (`InstructionError`).
`DrawingOutOfBounds` and the unused `InvalidLength` variant are omitted:
no function embedded here produces them. -/
inductive InstructionError where
  | startOutOfBounds (startIdx upperBound : Nat)
  | incompleteInstructions (b : Nat)
  | emptyInstructionSet
  | bufferTooSmall (size : Nat)
  deriving DecidableEq, Repr

/-- Outcome of a fallible piece of the embedded Rust code: a success
value, an `InstructionError`, a panic caused by an out-of-bounds index
(Rust aborts there; the model makes the event explicit), or exhaustion
of the fuel that makes the source's `loop` structural. -/
inductive RunResult (α : Type) where
  | ok (val : α)
  | err (e : InstructionError)
  | panicOOB (idx : Nat)
  | outOfFuel
  deriving DecidableEq, Repr

/-- Outcome of `get_next_instruction_bounds` (`NextInstructionError` in
`src/instruction/error.rs`, plus the success pair and a possible panic). -/
inductive NextIns where
  | ok (sb eb : Nat)
  | endOfStream
  | invalidInstruction (cidx : Nat)
  | panicOOB (idx : Nat)
  deriving DecidableEq, Repr

/-- `get_next_instruction_bounds` from `src/instruction/mod.rs`:
skip the four motor-step bytes, treat a following `0x0A`/`0x0B` pen-op
byte as part of the instruction, and require the terminator `0x0C`.
The Rust code indexes `ins_bytes[potential_eoi_idx]` without a bounds
check after stepping over a pen-op byte; when that index is one past the
end the function panics, modelled by `NextIns.panicOOB`. -/
def getNextInstructionBounds (insBytes : List Nat) (cidx : Nat) : NextIns :=
  let potentialEoi := cidx + 4
  if potentialEoi ≥ insBytes.length then .endOfStream
  else
    let b := insBytes.getD potentialEoi 0
    let idx2 := if b = 0x0A ∨ b = 0x0B then potentialEoi + 1 else potentialEoi
    if idx2 < insBytes.length then
      if insBytes.getD idx2 0 = 0x0C then .ok cidx idx2
      else .invalidInstruction cidx
    else .panicOOB idx2

/-- The `loop` body of `is_stream_valid` from `src/instruction/mod.rs`,
made structural on a fuel argument.  The cursor `c` always advances by at
least 5 per iteration, so `insBytes.length` units of fuel suffice (proved
in `isvLoop_wellformed` below).  As in the source, the loop terminates
with success as soon as `c + 4` runs past the end of the stream, and it
reads `ins_bytes[c_idx]` without a bounds check after a pen-op byte. -/
def isvLoop (insBytes : List Nat) : Nat → Nat → RunResult Unit
  | 0, _ => .outOfFuel
  | fuel + 1, c =>
    let c4 := c + 4
    if c4 ≥ insBytes.length then .ok ()
    else if insBytes.getD c4 0 = 0x0C then isvLoop insBytes fuel (c4 + 1)
    else if insBytes.getD c4 0 = 0x0A ∨ insBytes.getD c4 0 = 0x0B then
      if c4 + 1 < insBytes.length then
        if insBytes.getD (c4 + 1) 0 = 0x0C then isvLoop insBytes fuel (c4 + 2)
        else .err (.incompleteInstructions (insBytes.getD (c4 + 1) 0))
      else .panicOOB (c4 + 1)
    else .err (.incompleteInstructions (insBytes.getD c4 0))

/-- `is_stream_valid` from `src/instruction/mod.rs`.  The Rust function
returns `None` for a valid stream (here `.ok ()`) and `Some err`
otherwise (here `.err`). -/
def isStreamValid (insBytes : List Nat) : RunResult Unit :=
  if insBytes.isEmpty then .err .emptyInstructionSet
  else isvLoop insBytes insBytes.length 0

/-- `InstructionSet::new`: validate and wrap the bytes. -/
def instructionSetNew (insBytes : List Nat) : RunResult (List Nat) :=
  match isStreamValid insBytes with
  | .ok _ => .ok insBytes
  | .err e => .err e
  | .panicOOB i => .panicOOB i
  | .outOfFuel => .outOfFuel

/-- The nested `loop`s of `InstructionSet::get_buffer_bounds`, made
structural on a fuel argument.  State: `startIdx` is the first byte of
the chunk being built, `lastValid` the index of its last confirmed
`0x0C` byte, `c` the cursor (first byte of the next instruction), `acc`
the chunk bounds pushed so far.  A `break` of the source's inner loop
followed by the outer loop's reset is the first recursive call; advancing
over one instruction is the second. -/
def gbbLoop (insBytes : List Nat) (maxChunkSize : Nat) :
    Nat → Nat → Nat → Nat → List (Nat × Nat) → RunResult (List (Nat × Nat))
  | 0, _, _, _, _ => .outOfFuel
  | fuel + 1, startIdx, lastValid, c, acc =>
    match getNextInstructionBounds insBytes c with
    | .ok _ eb =>
      if eb ≥ startIdx + maxChunkSize then
        gbbLoop insBytes maxChunkSize fuel (lastValid + 1) (lastValid + 1) (lastValid + 1)
          (acc ++ [(startIdx, lastValid)])
      else
        gbbLoop insBytes maxChunkSize fuel startIdx eb (eb + 1) acc
    | .endOfStream => .ok (acc ++ [(startIdx, lastValid)])
    | .invalidInstruction _ => .err (.incompleteInstructions (insBytes.getD c 0))
    | .panicOOB i => .panicOOB i

/-- The closure passed to `get_or_try_init` inside
`InstructionSet::get_buffer_bounds`: the computation performed on the
first call, when the `OnceCell` cache is still empty. -/
def computeBufferBounds (insBytes : List Nat) (maxChunkSize : Nat) :
    RunResult (List (Nat × Nat)) :=
  if maxChunkSize < 8 then .err (.bufferTooSmall maxChunkSize)
  else gbbLoop insBytes maxChunkSize (2 * insBytes.length + 2) 0 0 0 []

/-- `InstructionSet::get_buffer_bounds` including its `OnceCell`
memoisation (`buffer_bound_cache.get_or_try_init`): the cache is a single
unkeyed cell, so a populated cache short-circuits the whole computation —
including the `max_chunk_size < 8` check — and the stored bounds are
returned regardless of the `max_chunk_size` of the current call.
State-passing model: returns the result together with the new cache. -/
def getBufferBoundsCached (cache : Option (List (Nat × Nat))) (insBytes : List Nat)
    (maxChunkSize : Nat) : RunResult (List (Nat × Nat)) × Option (List (Nat × Nat)) :=
  match cache with
  | some v => (.ok v, some v)
  | none =>
    match computeBufferBounds insBytes maxChunkSize with
    | .ok v => (.ok v, some v)
    | r => (r, none)

/-- `BigEndian::read_i16` on two bytes: two's-complement decoding. -/
def toI16 (hi lo : Nat) : Int :=
  let v := hi * 256 + lo
  if v < 32768 then (v : Int) else (v : Int) - 65536

/-- The inner instruction walk of `parse_to_numerical_steps` over one
chunk `(c .. eIdx)`, made structural on a fuel argument.  `penUp` is the
latched pen state; a completed chunk returns the accumulated triples and
the latched state so the next chunk continues from it (the source keeps
`pen_up` in a variable that outlives the chunk loop). -/
def parseInsLoop (insBytes : List Nat) (eIdx : Nat) :
    Nat → Nat → Bool → List (Int × Int × Bool) → RunResult (List (Int × Int × Bool) × Bool)
  | 0, _, _, _ => .outOfFuel
  | fuel + 1, c, penUp, acc =>
    match getNextInstructionBounds insBytes c with
    | .ok sb eb =>
      let leftSteps := toI16 (insBytes.getD sb 0) (insBytes.getD (sb + 1) 0)
      let rightSteps := toI16 (insBytes.getD (sb + 2) 0) (insBytes.getD (sb + 3) 0)
      if sb + 4 = eb ∧ insBytes.getD (sb + 4) 0 = 0x0C then
        -- five bytes, no special instruction: pen state inherited
        if eb = eIdx then .ok (acc ++ [(leftSteps, rightSteps, penUp)], penUp)
        else parseInsLoop insBytes eIdx fuel (eb + 1) penUp (acc ++ [(leftSteps, rightSteps, penUp)])
      else if insBytes.getD (sb + 4) 0 = 0x0A then
        if eb = eIdx then .ok (acc ++ [(leftSteps, rightSteps, true)], true)
        else parseInsLoop insBytes eIdx fuel (eb + 1) true (acc ++ [(leftSteps, rightSteps, true)])
      else if insBytes.getD (sb + 4) 0 = 0x0B then
        if eb = eIdx then .ok (acc ++ [(leftSteps, rightSteps, false)], false)
        else parseInsLoop insBytes eIdx fuel (eb + 1) false (acc ++ [(leftSteps, rightSteps, false)])
      else .err (.incompleteInstructions (insBytes.getD (sb + 4) 0))
    | .panicOOB i => .panicOOB i
    | _ => .err (.incompleteInstructions 0xFF)

/-- The outer `for (s_idx, e_idx) in result_buffer_bounds` loop of
`parse_to_numerical_steps`, threading the latched pen state. -/
def parseChunks (insBytes : List Nat) :
    List (Nat × Nat) → Bool → List (Int × Int × Bool) → RunResult (List (Int × Int × Bool))
  | [], _, acc => .ok acc
  | (s, e) :: rest, penUp, acc =>
    match parseInsLoop insBytes e (insBytes.length + 1) s penUp acc with
    | .ok (acc2, pen2) => parseChunks insBytes rest pen2 acc2
    | .err er => .err er
    | .panicOOB i => .panicOOB i
    | .outOfFuel => .outOfFuel

/-- `InstructionSet::parse_to_numerical_steps`: obtain the chunk bounds
for a 4096-byte buffer (the uncached, first-call path of
`get_buffer_bounds`) and decode every instruction to
`(left, right, pen_up)` with the latched pen state starting `true`. -/
def parseToNumericalSteps (insBytes : List Nat) : RunResult (List (Int × Int × Bool)) :=
  match computeBufferBounds insBytes 4096 with
  | .ok bounds => parseChunks insBytes bounds true []
  | .err e => .err e
  | .panicOOB i => .panicOOB i
  | .outOfFuel => .outOfFuel

/-! ## Specification-side predicates

The instruction grammar of the specification (§3):
`instruction := left:i16 right:i16 [pen_op:u8] terminator:u8 (=0x0C)`,
a stream being a concatenation of at least one instruction. -/

/-- A single wire instruction: four payload bytes and the terminator
`0x0C`, optionally with a pen-op byte `0x0A`/`0x0B` before the
terminator.  Payload bytes are `u8` values. -/
def IsIns (l : List Nat) : Prop :=
  (∃ b0 b1 b2 b3, b0 < 256 ∧ b1 < 256 ∧ b2 < 256 ∧ b3 < 256 ∧
      l = [b0, b1, b2, b3, 0x0C]) ∨
  (∃ b0 b1 b2 b3 p, b0 < 256 ∧ b1 < 256 ∧ b2 < 256 ∧ b3 < 256 ∧
      (p = 0x0A ∨ p = 0x0B) ∧ l = [b0, b1, b2, b3, p, 0x0C])

/-- A valid instruction stream per the specification's grammar: a
concatenation of one or more complete instructions. -/
def IsInsStream (l : List Nat) : Prop :=
  ∃ inss : List (List Nat), inss ≠ [] ∧ (∀ i ∈ inss, IsIns i) ∧ l = inss.flatten

/-- The inclusive byte slice `bytes[s ..= e]`. -/
def sliceIncl (bytes : List Nat) (s e : Nat) : List Nat :=
  (bytes.take (e + 1)).drop s

/-- One chunk `(s, e)` of the claimed buffer-bounds property: nonempty,
spans at most `k` bytes, its slice is itself a concatenation of complete
instructions, and it therefore ends at the terminator byte `0x0C` of a
complete instruction. -/
def GoodChunk (k : Nat) (bytes : List Nat) (p : Nat × Nat) : Prop :=
  p.1 ≤ p.2 ∧ p.2 + 1 - p.1 ≤ k ∧ IsInsStream (sliceIncl bytes p.1 p.2) ∧
    bytes.getD p.2 0 = 0x0C

/-- The claimed shape of `get_buffer_bounds`' output, started at byte
`s0`: a nonempty ordered list of inclusive index pairs, the first
starting at `s0`, contiguous and non-overlapping (each next start is the
previous end plus one), the last ending at the final byte of the stream,
and every chunk a `GoodChunk`. -/
def GoodChain (k : Nat) (bytes : List Nat) (s0 : Nat) (bounds : List (Nat × Nat)) : Prop :=
  bounds ≠ [] ∧
  bounds.head?.map Prod.fst = some s0 ∧
  List.Chain' (fun a b => b.1 = a.2 + 1) bounds ∧
  bounds.getLast?.map Prod.snd = some (bytes.length - 1) ∧
  ∀ p ∈ bounds, GoodChunk k bytes p

/-- The latched pen state after decoding one instruction, per the
specification of `parse_to_numerical_steps`: a pen-op byte `0x0A` latches
`true`, `0x0B` latches `false`, and a plain five-byte instruction
inherits the current state. -/
def penAfter (ins : List Nat) (penUp : Bool) : Bool :=
  if ins.getD 4 0 = 0x0A then true
  else if ins.getD 4 0 = 0x0B then false
  else penUp

/-- Specification of `parse_to_numerical_steps` (§4.3): one
`(left, right, pen_up)` triple per instruction, in stream order, where
`left`/`right` are the big-endian `i16` payload fields and `pen_up` is
the latched state. -/
def specNumericalSteps : List (List Nat) → Bool → List (Int × Int × Bool)
  | [], _ => []
  | ins :: rest, penUp =>
    let pen2 := penAfter ins penUp
    (toI16 (ins.getD 0 0) (ins.getD 1 0), toI16 (ins.getD 2 0) (ins.getD 3 0), pen2) ::
      specNumericalSteps rest pen2

/-- The latched pen state after decoding a list of instructions. -/
def penEnd (inss : List (List Nat)) (penUp : Bool) : Bool :=
  inss.foldl (fun p i => penAfter i p) penUp

/-! ## Client model: greeting handshake and listen loop
(`src/client/state.rs`) -/

/-- `bytes_to_u16` from `src/client/state.rs` (with its out-of-range
guard returning 0). -/
def bytesToU16 (a : List Nat) (index : Nat) : Nat :=
  if index + 1 > a.length then 0
  else a.getD index 0 * 256 + a.getD (index + 1) 0

/-- `bytes_to_u32` from `src/client/state.rs` (with its out-of-range
guard returning 0). -/
def bytesToU32 (a : List Nat) (index : Nat) : Nat :=
  if index + 3 > a.length then 0
  else a.getD index 0 * 16777216 + a.getD (index + 1) 0 * 65536 +
    a.getD (index + 2) 0 * 256 + a.getD (index + 3) 0

/-- `read_header` from `src/client/state.rs`: extracts
`(protocol_version, instruction_buffer_size, max_motor_speed,
min_pulse_width)` from the greeting response buffer, the buffer size
being the big-endian `u32` at bytes 7–10. -/
def readHeader (header : List Nat) : Nat × Nat × Nat × Nat :=
  (bytesToU16 header 1, bytesToU32 header 7, bytesToU32 header 11, bytesToU32 header 15)

/-- Possible outcomes of the greeting decision inside `ClientState::new`,
mirroring its Rust signature `Result<TcpStream, ClientError>`: the
session proceeds (`accepted`, carrying the parsed machine configuration),
or fails with a `ClientError`.  `insBufferSmall` is the
`ClientError::InsBufferSmall` variant of `src/client/error.rs`. -/
inductive GreetingResult where
  | accepted (protocolVersion insBufferSize maxMotorSpeed minPulseWidth : Nat)
  | machineInUse
  | insBufferSmall (size : Nat)
  deriving DecidableEq, Repr

/-- The decision `ClientState::new` takes on the greeting response buffer
(`inc_buffer`, zero-initialised before the read): first byte `0x01` →
parse the header and proceed; first byte `0x00` → `MachineInUse`; any
other first byte → `MachineInUse` (the source's TODO fallback). -/
def clientGreeting (incBuffer : List Nat) : GreetingResult :=
  if incBuffer.getD 0 0 = 0x01 then
    let (pv, ibs, mms, mpw) := readHeader incBuffer
    .accepted pv ibs mms mpw
  else if incBuffer.getD 0 0 = 0x00 then .machineInUse
  else .machineInUse

/-- The progress string `ClientState::listen` emits before sending chunk
`k` of `n` (the only `emit` call in the listen loop). -/
def emitMsg (k n : Nat) : String :=
  "\x7b\"event\":\"drawing\", \"message\":\"Sent more drawing instructions (" ++
    toString k ++ "/" ++ toString n ++ ")\"\x7d"

/-- The `ClientState::listen` loop, modelled on the sequence of incoming
packets (each packet the bytes one `reader.read` delivers; an empty
packet models a zero read, whose buffer stays zero-initialised).
`bounds` is the memoised `get_buffer_bounds(32768)` value and `bufIdx`
the shared chunk index.  Returns the list of `write_all` payloads in
order, the emitted progress strings, whether the write half was shut
down, and the final chunk index.  On the request that finds
`next_buf_lock - 1 == bounds.len()` the source writes `[0x02]`, shuts the
write half down and returns, leaving any later packets unread. -/
def listenRun (binary : List Nat) (bounds : List (Nat × Nat)) :
    Nat → List (List Nat) → List (List Nat) × List String × Bool × Nat
  | bufIdx, [] => ([], [], false, bufIdx)
  | bufIdx, packet :: rest =>
    if packet.getD 0 0 = 0x03 then
      let idx2 := bufIdx + 1
      if idx2 - 1 = bounds.length then
        ([[0x02]], [], true, idx2)
      else
        let msg := emitMsg idx2 bounds.length
        let se := bounds.getD (idx2 - 1) (0, 0)
        let chunk := sliceIncl binary se.1 se.2
        let r := listenRun binary bounds idx2 rest
        ([0x01] :: chunk :: r.1, msg :: r.2.1, r.2.2.1, r.2.2.2)
    else listenRun binary bounds bufIdx rest

/-! ## Kinematics and the drawing surface
(`src/hardware/math.rs`, `src/preview/belts.rs`, `src/drawing/mod.rs`)

`f64` values are modelled as real numbers; `f64::sqrt` as `Real.sqrt`
and `.round()` (round half away from zero) as `rustRound`. -/

noncomputable section Kinematics

/-- `cartesian_to_belt` from `src/hardware/math.rs`. -/
def cartesianToBelt (x y motorInterspace : ℝ) : ℝ × ℝ :=
  (Real.sqrt (x ^ 2 + y ^ 2), Real.sqrt ((motorInterspace - x) ^ 2 + y ^ 2))

/-- `belt_to_cartesian` from `src/hardware/math.rs`. -/
def beltToCartesian (leftLength rightLength motorInterspace : ℝ) : ℝ × ℝ :=
  let x := (motorInterspace ^ 2 + leftLength ^ 2 - rightLength ^ 2) / (2 * motorInterspace)
  (x, Real.sqrt (leftLength ^ 2 - x ^ 2))

/-- `steps_per_mm` from `src/hardware/math.rs`:
`STEPS_PER_REV / (π · WHEEL_DIAMETER)` with `STEPS_PER_REV = 3200` and
`WHEEL_DIAMETER = 12.63`. -/
def stepsPerMm : ℝ := 3200 / (Real.pi * 12.63)

/-- `steps_to_mm` from `src/hardware/math.rs`. -/
def stepsToMm (steps : Int) : ℝ := (steps : ℝ) / stepsPerMm

/-- `f64::round`: round half away from zero. -/
def rustRound (x : ℝ) : Int := if 0 ≤ x then ⌊x + 1 / 2⌋ else -⌊-x + 1 / 2⌋

/-- The `Belts` struct of `src/preview/belts.rs`. -/
structure Belts where
  leftBeltLength : ℝ
  rightBeltLength : ℝ
  motorInterspace : ℝ

/-- `Belts::new_by_cartesian`. -/
def Belts.newByCartesian (canvasX canvasY motorInterspace : ℝ) : Belts :=
  let lr := cartesianToBelt canvasX canvasY motorInterspace
  ⟨lr.1, lr.2, motorInterspace⟩

/-- `Belts::move_by_steps` (which runs `move_left` then `move_right`,
each adding `steps_to_mm(steps)` to its belt length). -/
def Belts.moveBySteps (b : Belts) (leftSteps rightSteps : Int) : Belts :=
  ⟨b.leftBeltLength + stepsToMm leftSteps, b.rightBeltLength + stepsToMm rightSteps,
    b.motorInterspace⟩

/-- The fields of `PhysicalDimensions` (`src/hardware/mod.rs`) used by
the drawing surface. -/
structure PhysicalDimensions where
  motorInterspace : ℝ
  pageHorizontalOffset : ℝ
  pageVerticalOffset : ℝ
  pageWidth : ℝ
  pageHeight : ℝ

/-- The `DrawSurface` struct of `src/drawing/mod.rs` (the
`physical_dimensions` reference is carried as a field). -/
structure DrawSurface where
  firstSampleX : Option ℝ
  firstSampleY : Option ℝ
  currentIns : List Nat
  physicalDimensions : PhysicalDimensions
  belts : Belts

/-- The only failure `sample_xy` and `pop_sample` produce (the source
returns `Err(String)`; the strings are the step-overflow message of
`sample_xy` and the empty-pop message of `pop_sample`). -/
inductive SurfaceErr where
  | stepOverflow
  | emptyPop
  deriving DecidableEq, Repr

/-- `BigEndian::write_i16`: the two big-endian bytes of an `i16`. -/
def i16Bytes (v : Int) : List Nat :=
  let u := (v % 65536).toNat
  [u / 256, u % 256]

/-- Rust `i16` negation, as in `move_by_steps(ls, -rs)` and
`move_by_steps(-left_steps, right_steps)`.  At `i16::MIN = -32768` the
negation overflows: a release build wraps to `i16::MIN` itself (the
behaviour modelled here), a debug build panics at the same input.  All
call sites feed values in `[-32768, 32767]`. -/
def i16Neg (v : Int) : Int := if v = -32768 then -32768 else -v

/-- The pre-rounding float step counts `(delta_left_steps,
delta_right_steps)` a `sample_xy(x, y)` call computes from the current
belt lengths (the right-hand count is sign-inverted for the wire). -/
def deltaSteps (ds : DrawSurface) (x y : ℝ) : ℝ × ℝ :=
  let nl := cartesianToBelt (ds.physicalDimensions.pageHorizontalOffset + x)
    (ds.physicalDimensions.pageVerticalOffset + y) ds.physicalDimensions.motorInterspace
  ((nl.1 - ds.belts.leftBeltLength) * stepsPerMm,
    -((nl.2 - ds.belts.rightBeltLength) * stepsPerMm))

/-- `DrawSurface::sample_xy` from `src/drawing/mod.rs`, in state-passing
form: returns the error (if any) and the surface after the call.  On the
first call it only records the sample and re-initialises the belts; on a
later call it computes the float step deltas, fails with the
step-overflow error if `delta ≥ i16::MAX` or `delta ≤ i16::MIN` on either
side (leaving the surface untouched, as the source returns before any
mutation), and otherwise appends the five instruction bytes and moves the
belts by `move_by_steps(ls, -rs)` — the right step negated again with the
`i16` negation `i16Neg`, which wraps at `i16::MIN`. -/
def sampleXY (ds : DrawSurface) (x y : ℝ) : Option SurfaceErr × DrawSurface :=
  if ds.firstSampleX.isNone || ds.firstSampleY.isNone then
    (none,
      { ds with
        firstSampleX := some x
        firstSampleY := some y
        belts := Belts.newByCartesian (ds.physicalDimensions.pageHorizontalOffset + x)
          (ds.physicalDimensions.pageVerticalOffset + y)
          ds.physicalDimensions.motorInterspace })
  else
    let d := deltaSteps ds x y
    if d.1 ≥ 32767 ∨ d.1 ≤ -32768 ∨ d.2 ≥ 32767 ∨ d.2 ≤ -32768 then
      (some .stepOverflow, ds)
    else
      let ls := rustRound d.1
      let rs := rustRound d.2
      (none,
        { ds with
          belts := ds.belts.moveBySteps ls (i16Neg rs)
          currentIns := ds.currentIns ++ i16Bytes ls ++ i16Bytes rs ++ [0x0C] })

/-- `DrawSurface::pop_sample` from `src/drawing/mod.rs`, in state-passing
form: fails (surface untouched) when fewer than five instruction bytes
exist; otherwise pops the terminator and the four step bytes, decodes the
popped pairs (little-endian, because they come off in reverse), and moves
the belts by `move_by_steps(-left_steps, right_steps)` — the left step
negated with the `i16` negation `i16Neg`, which wraps at `i16::MIN`. -/
def popSample (ds : DrawSurface) : Option SurfaceErr × DrawSurface :=
  if ds.currentIns.length < 5 then (some .emptyPop, ds)
  else
    let n := ds.currentIns.length
    let leftSteps := toI16 (ds.currentIns.getD (n - 5) 0) (ds.currentIns.getD (n - 4) 0)
    let rightSteps := toI16 (ds.currentIns.getD (n - 3) 0) (ds.currentIns.getD (n - 2) 0)
    (none,
      { ds with
        belts := ds.belts.moveBySteps (i16Neg leftSteps) rightSteps
        currentIns := ds.currentIns.take (n - 5) })

/-- A standard physical configuration for the concrete drawing-surface
instances: motors 100 mm apart, page at the left motor shaft with no
offset. -/
def dims0 : PhysicalDimensions := ⟨100, 0, 0, 210, 297⟩

/-- A surface with a recorded first sample whose next `sample_xy(3, 4)`
call computes a left-belt float step count of exactly `i16::MAX = 32767`
(the left belt is shorter than the target length `√(3² + 4²) = 5` by
exactly `32767 / steps_per_mm` millimetres) and a right-belt step count
of exactly 0. -/
def surfaceMax : DrawSurface :=
  { firstSampleX := some 0
    firstSampleY := some 0
    currentIns := []
    physicalDimensions := dims0
    belts := ⟨5 - 32767 / stepsPerMm, (cartesianToBelt (0 + 3) (0 + 4) 100).2, 100⟩ }

/-- A surface with a recorded first sample whose next `sample_xy(3, 4)`
call computes a left-belt float step count of exactly `-32767.6` — strictly
inside the overflow guard's open interval `(-32768, 32767)`, but rounding
half-away-from-zero to `i16::MIN = -32768` — and a right-belt step count of
exactly 0. -/
def surfaceMin : DrawSurface :=
  { firstSampleX := some 0
    firstSampleY := some 0
    currentIns := []
    physicalDimensions := dims0
    belts := ⟨5 + 32767.6 / stepsPerMm, (cartesianToBelt (0 + 3) (0 + 4) 100).2, 100⟩ }

/-- A surface with a recorded first sample whose next `sample_xy(3, 4)`
call moves the left belt by one millimetre (`steps_per_mm ≈ 80.6` steps,
well in range) and the right belt not at all. -/
def surface0 : DrawSurface :=
  { firstSampleX := some 0
    firstSampleY := some 0
    currentIns := []
    physicalDimensions := dims0
    belts := ⟨4, (cartesianToBelt (0 + 3) (0 + 4) 100).2, 100⟩ }

end Kinematics

/-- The 15-byte three-instruction stream of scenario S1 and of the
source's `valid_instruction_stream` test. -/
def stream15 : List Nat :=
  [0x0A, 0x0B, 0x2A, 0x3A, 0x0C, 0x0A, 0x0B, 0x2A, 0x3A, 0x0C, 0x0A, 0x0B, 0x2A, 0x3A, 0x0C]

/-- A single-instruction stream (one five-byte instruction). -/
def stream5 : List Nat := [0x0A, 0x0B, 0x2A, 0x3A, 0x0C]

/-- The 12-byte pen-op stream of scenario S2. -/
def stream12 : List Nat :=
  [0x0A, 0x0B, 0x2A, 0x3A, 0x0A, 0x0C, 0x0A, 0x0B, 0x2A, 0x3A, 0x0B, 0x0C]

-- sanity checks on the literal streams of the source's test module and of
-- the specification's end-to-end scenarios (removed markers; plain examples)
example :
    isStreamValid [0x0A, 0x0B, 0x2A, 0x3A, 0x0C, 0x0A, 0x0B, 0x2A, 0x3A, 0x0C,
      0x0A, 0x0B, 0x2A, 0x3A, 0x0C] = .ok () := by decide

example :
    computeBufferBounds [0x0A, 0x0B, 0x2A, 0x3A, 0x0C, 0x0A, 0x0B, 0x2A, 0x3A, 0x0C,
      0x0A, 0x0B, 0x2A, 0x3A, 0x0C] 11 = .ok [(0, 9), (10, 14)] := by decide

example :
    parseToNumericalSteps [0x0A, 0x0B, 0x2A, 0x3A, 0x0A, 0x0C,
      0x0A, 0x0B, 0x2A, 0x3A, 0x0B, 0x0C] =
      .ok [(0x0A0B, 0x2A3A, true), (0x0A0B, 0x2A3A, false)] := by decide

example : isStreamValid [0, 0, 0, 0, 0x0A] = .panicOOB 5 := by decide

example : isStreamValid [0x0A, 0x0B, 0x2A, 0x3A, 0x0C, 0] = .ok () := by decide

example : computeBufferBounds [0, 0, 0, 0] 8 = .ok [(0, 0)] := by decide

/-! ## List helper lemmas -/

lemma getD_append_left (l l2 : List Nat) (n : Nat) (h : n < l.length) :
    (l ++ l2).getD n 0 = l.getD n 0 := by
  simp [List.getD_eq_getElem?_getD, List.getElem?_append, h]

lemma getD_append_right (l l2 : List Nat) (n : Nat) (h : l.length ≤ n) :
    (l ++ l2).getD n 0 = l2.getD (n - l.length) 0 := by
  simp [List.getD_eq_getElem?_getD, List.getElem?_append, Nat.not_lt.mpr h]

lemma drop_append_of_le (l l2 : List Nat) (n : Nat) (h : n ≤ l.length) :
    (l ++ l2).drop n = l.drop n ++ l2 := by
  rw [List.drop_append_eq_append_drop]
  simp [Nat.sub_eq_zero_of_le h]

lemma getD_of_drop (l : List Nat) (s n : Nat) : (l.drop s).getD n 0 = l.getD (s + n) 0 := by
  simp [List.getD_eq_getElem?_getD, List.getElem?_drop]

lemma getLast?_append_ne (l l2 : List Nat) (h : l2 ≠ []) :
    (l ++ l2).getLast? = l2.getLast? := by
  rw [List.getLast?_append]
  cases h2 : l2.getLast? with
  | none => exact absurd (List.getLast?_eq_none_iff.mp h2) h
  | some a => rfl

lemma getD_last_eq (l : List Nat) : l.getD (l.length - 1) 0 = l.getLast?.getD 0 := by
  rw [List.getLast?_eq_getElem? l, List.getD_eq_getElem?_getD]

/-! ## Facts about instructions and instruction streams -/

lemma isIns_length {i : List Nat} (h : IsIns i) : i.length = 5 ∨ i.length = 6 := by
  rcases h with ⟨b0, b1, b2, b3, _, _, _, _, rfl⟩ | ⟨b0, b1, b2, b3, p, _, _, _, _, _, rfl⟩
  · exact Or.inl rfl
  · exact Or.inr rfl

lemma isIns_ne_nil {i : List Nat} (h : IsIns i) : i ≠ [] := by
  intro hnil
  rcases isIns_length h with h5 | h5 <;> rw [hnil] at h5 <;> simp at h5

lemma isIns_getLast {i : List Nat} (h : IsIns i) : i.getLast? = some 0x0C := by
  rcases h with ⟨b0, b1, b2, b3, _, _, _, _, rfl⟩ | ⟨b0, b1, b2, b3, p, _, _, _, _, _, rfl⟩ <;>
    rfl

lemma isInsStream_single {i : List Nat} (h : IsIns i) : IsInsStream i :=
  ⟨[i], by simp, by simpa using h, by simp⟩

lemma isInsStream_append_ins {l i : List Nat} (hl : IsInsStream l) (hi : IsIns i) :
    IsInsStream (l ++ i) := by
  obtain ⟨inss, hne, hall, rfl⟩ := hl
  refine ⟨inss ++ [i], by simp, ?_, by simp⟩
  intro j hj
  rcases List.mem_append.mp hj with hj | hj
  · exact hall j hj
  · have : j = i := by simpa using hj
    subst this
    exact hi

lemma flatten_length_ge {inss : List (List Nat)} (h : ∀ i ∈ inss, IsIns i) :
    5 * inss.length ≤ inss.flatten.length := by
  induction inss with
  | nil => simp
  | cons i rest ih =>
    have hi : i.length = 5 ∨ i.length = 6 := isIns_length (h i (by simp))
    have hr := ih (fun j hj => h j (by simp [hj]))
    simp only [List.flatten_cons, List.length_append, List.length_cons]
    omega

lemma isInsStream_length {l : List Nat} (h : IsInsStream l) : 5 ≤ l.length := by
  obtain ⟨inss, hne, hall, rfl⟩ := h
  have := flatten_length_ge hall
  have : 1 ≤ inss.length := by
    cases inss with
    | nil => exact absurd rfl hne
    | cons a b => simp
  omega

lemma flatten_getLast {inss : List (List Nat)} :
    inss ≠ [] → (∀ i ∈ inss, IsIns i) → inss.flatten.getLast? = some 0x0C := by
  induction inss with
  | nil => intro h _; exact absurd rfl h
  | cons i rest ih =>
    intro _ hall
    cases rest with
    | nil => simpa using isIns_getLast (hall i (by simp))
    | cons j rest2 =>
      have hjne : (j :: rest2).flatten ≠ [] := by
        have hj : j ≠ [] := isIns_ne_nil (hall j (by simp))
        simp only [List.flatten_cons]
        exact fun hc => hj (List.append_eq_nil.mp hc).1
      rw [List.flatten_cons, getLast?_append_ne _ _ hjne]
      exact ih (by simp) (fun a ha => hall a (by simp [ha]))

lemma isInsStream_getLast {l : List Nat} (h : IsInsStream l) : l.getLast? = some 0x0C := by
  obtain ⟨inss, hne, hall, rfl⟩ := h
  exact flatten_getLast hne hall

lemma isInsStream_lastByte {l : List Nat} (h : IsInsStream l) :
    l.getD (l.length - 1) 0 = 0x0C := by
  rw [getD_last_eq, isInsStream_getLast h]
  rfl

/-! ## Behaviour of `get_next_instruction_bounds` on well-formed input -/

lemma getNext_endOfStream (insBytes : List Nat) (c : Nat) (h : insBytes.length ≤ c + 4) :
    getNextInstructionBounds insBytes c = .endOfStream := by
  unfold getNextInstructionBounds
  rw [if_pos (by omega)]

/-- At the start of a complete instruction the walk succeeds and returns
exactly that instruction's bounds, reading no byte beyond it. -/
lemma getNext_ins (insBytes pre i suf : List Nat) (hb : insBytes = pre ++ (i ++ suf))
    (hi : IsIns i) :
    getNextInstructionBounds insBytes pre.length = .ok pre.length (pre.length + i.length - 1) := by
  rcases hi with ⟨b0, b1, b2, b3, _, _, _, _, rfl⟩ | ⟨b0, b1, b2, b3, p, _, _, _, _, hp, rfl⟩
  · subst hb
    have hlen : (pre ++ ([b0, b1, b2, b3, 0x0C] ++ suf)).length =
        pre.length + 5 + suf.length := by simp; omega
    have hb4 : (pre ++ ([b0, b1, b2, b3, 0x0C] ++ suf)).getD (pre.length + 4) 0 = 0x0C := by
      rw [getD_append_right _ _ _ (by omega)]
      have h4 : pre.length + 4 - pre.length = 4 := by omega
      rw [h4, getD_append_left _ _ _ (by simp)]
      rfl
    have hnotend : ¬ (pre.length + 4 ≥ (pre ++ ([b0, b1, b2, b3, 0x0C] ++ suf)).length) := by
      rw [hlen]; omega
    have hlt : pre.length + 4 < (pre ++ ([b0, b1, b2, b3, 0x0C] ++ suf)).length := by
      rw [hlen]; omega
    have hpen : ¬ ((pre ++ ([b0, b1, b2, b3, 0x0C] ++ suf)).getD (pre.length + 4) 0 = 0x0A ∨
        (pre ++ ([b0, b1, b2, b3, 0x0C] ++ suf)).getD (pre.length + 4) 0 = 0x0B) := by
      rw [hb4]; norm_num
    simp only [getNextInstructionBounds, if_neg hnotend]
    rw [if_neg hpen, if_pos hlt, if_pos hb4]
    have h54 : pre.length + [b0, b1, b2, b3, 0x0C].length - 1 = pre.length + 4 := by
      simp
    rw [h54]
  · subst hb
    have hlen : (pre ++ ([b0, b1, b2, b3, p, 0x0C] ++ suf)).length =
        pre.length + 6 + suf.length := by simp; omega
    have hb4 : (pre ++ ([b0, b1, b2, b3, p, 0x0C] ++ suf)).getD (pre.length + 4) 0 = p := by
      rw [getD_append_right _ _ _ (by omega)]
      have h4 : pre.length + 4 - pre.length = 4 := by omega
      rw [h4, getD_append_left _ _ _ (by simp)]
      rfl
    have hb5 : (pre ++ ([b0, b1, b2, b3, p, 0x0C] ++ suf)).getD (pre.length + 5) 0 = 0x0C := by
      rw [getD_append_right _ _ _ (by omega)]
      have h5 : pre.length + 5 - pre.length = 5 := by omega
      rw [h5, getD_append_left _ _ _ (by simp)]
      rfl
    have hnotend : ¬ (pre.length + 4 ≥ (pre ++ ([b0, b1, b2, b3, p, 0x0C] ++ suf)).length) := by
      rw [hlen]; omega
    have hlt : pre.length + 5 < (pre ++ ([b0, b1, b2, b3, p, 0x0C] ++ suf)).length := by
      rw [hlen]; omega
    have hpen : (pre ++ ([b0, b1, b2, b3, p, 0x0C] ++ suf)).getD (pre.length + 4) 0 = 0x0A ∨
        (pre ++ ([b0, b1, b2, b3, p, 0x0C] ++ suf)).getD (pre.length + 4) 0 = 0x0B := by
      rw [hb4]; exact hp
    simp only [getNextInstructionBounds, if_neg hnotend]
    rw [if_pos hpen, if_pos hlt, if_pos hb5]
    have h65 : pre.length + [b0, b1, b2, b3, p, 0x0C].length - 1 = pre.length + 5 := by
      simp
    rw [h65]

/-! ## Chain helper lemmas -/

lemma goodChain_singleton {k : Nat} {bytes : List Nat} {s e : Nat}
    (hc : GoodChunk k bytes (s, e)) (he : e = bytes.length - 1) :
    GoodChain k bytes s [(s, e)] := by
  refine ⟨by simp, by simp, by simp, by simp [he], ?_⟩
  intro p hp
  rw [List.mem_singleton.mp hp]
  exact hc

lemma goodChain_cons {k : Nat} {bytes : List Nat} {s e : Nat} {tl : List (Nat × Nat)}
    (hc : GoodChunk k bytes (s, e)) (h : GoodChain k bytes (e + 1) tl) :
    GoodChain k bytes s ((s, e) :: tl) := by
  obtain ⟨hne, hhead, hchain, hlast, hall⟩ := h
  refine ⟨by simp, by simp, ?_, ?_, ?_⟩
  · refine List.chain'_cons'.mpr ⟨?_, hchain⟩
    intro y hy
    cases tl with
    | nil => simp at hy
    | cons a tl2 =>
      simp only [List.head?_cons, Option.mem_some_iff] at hy
      subst hy
      simpa using hhead
  · cases tl with
    | nil => exact absurd rfl hne
    | cons a tl2 => simpa [List.getLast?_cons_cons] using hlast
  · intro p hp
    rcases List.mem_cons.mp hp with rfl | hp
    · exact hc
    · exact hall p hp

/-- When the consumed prefix `pre` of the byte stream holds, from byte
`start` on, a stream of complete instructions of at most `k` bytes, the
pair `(start, pre.length - 1)` the loop pushes is a good chunk. -/
lemma goodChunk_push (insBytes pre suffix : List Nat) (start k : Nat)
    (hb : insBytes = pre ++ suffix)
    (hstream : IsInsStream (pre.drop start)) (hsize : pre.length - start ≤ k) :
    GoodChunk k insBytes (start, pre.length - 1) := by
  have hlen5 : 5 ≤ (pre.drop start).length := isInsStream_length hstream
  have hlendrop : (pre.drop start).length = pre.length - start := by
    simp [List.length_drop]
  have hbound : start + 5 ≤ pre.length := by omega
  refine ⟨by omega, by omega, ?_, ?_⟩
  · have h1 : pre.length - 1 + 1 = pre.length := by omega
    unfold sliceIncl
    rw [h1, hb, List.take_left pre suffix]
    exact hstream
  · have hlast := isInsStream_lastByte hstream
    rw [getD_of_drop, hlendrop] at hlast
    have hidx : start + (pre.length - start - 1) = pre.length - 1 := by omega
    rw [hidx] at hlast
    rw [hb, getD_append_left _ _ _ (by omega)]
    exact hlast

/-- Master invariant lemma for the chunking loop of `get_buffer_bounds`.
`rest` is the list of instructions not yet consumed and `pre` the
consumed prefix, so the cursor `c` sits at `pre.length`.  `mid = false`
is the top of the source's outer loop (a fresh chunk:
`start = lastValid = c`, and at least one instruction remains, because a
chunk break only happens when the walk has just found one); `mid = true`
is the inner loop after at least one instruction of the current chunk
has been consumed (`lastValid = c - 1`, and the chunk consumed so far —
`pre.drop start` — is a stream of complete instructions spanning at most
`k` bytes).  Each loop iteration burns one unit of fuel; a consume moves
an instruction from `rest` to `pre` and a break flips `mid`, so the
`cond`-weighted measure bounds the fuel needed. -/
lemma gbbLoop_main (insBytes : List Nat) (k : Nat) (hk : 8 ≤ k) :
    ∀ (fuel : Nat) (mid : Bool) (rest : List (List Nat)) (pre : List Nat) (start : Nat)
      (acc : List (Nat × Nat)),
      (∀ i ∈ rest, IsIns i) →
      insBytes = pre ++ rest.flatten →
      cond mid (2 * rest.length + 4) (2 * rest.length + 3) ≤ fuel →
      (mid = false → rest ≠ [] ∧ start = pre.length) →
      (mid = true → IsInsStream (pre.drop start) ∧ pre.length - start ≤ k) →
      ∃ bounds,
        gbbLoop insBytes k fuel start (cond mid (pre.length - 1) pre.length)
          pre.length acc = .ok (acc ++ bounds) ∧ GoodChain k insBytes start bounds := by
  intro fuel
  induction fuel with
  | zero =>
    intro mid rest pre start acc _ _ hfuel _ _
    cases mid <;> simp at hfuel
  | succ f ih =>
    intro mid rest pre start acc hall hbytes hfuel hfresh hmid
    cases mid with
    | false =>
      obtain ⟨hne, hstart⟩ := hfresh rfl
      cases rest with
      | nil => exact absurd rfl hne
      | cons r rest2 =>
        subst hstart
        have hr : IsIns r := hall r (by simp)
        have hgn : getNextInstructionBounds insBytes pre.length =
            .ok pre.length (pre.length + r.length - 1) :=
          getNext_ins insBytes pre r rest2.flatten (by simpa using hbytes) hr
        have hrlen : r.length = 5 ∨ r.length = 6 := isIns_length hr
        have hnobreak : ¬ (pre.length + r.length - 1 ≥ pre.length + k) := by omega
        simp only [Bool.cond_false]
        simp only [gbbLoop, hgn]
        rw [if_neg hnobreak]
        have hE : pre.length + r.length - 1 + 1 = (pre ++ r).length := by
          simp
          omega
        have hE2 : pre.length + r.length - 1 = (pre ++ r).length - 1 := by
          simp
        rw [hE, hE2]
        obtain ⟨bounds, heq, hchain⟩ := ih true rest2 (pre ++ r) pre.length acc
          (fun i hi => hall i (by simp [hi]))
          (by rw [hbytes]; simp)
          (by simp only [Bool.cond_true]; simp only [List.length_cons] at hfuel; simp at hfuel ⊢; omega)
          (by intro h; cases h)
          (by
            intro _
            constructor
            · rw [List.drop_left pre r]
              exact isInsStream_single hr
            · simp
              omega)
        simp only [Bool.cond_true] at heq
        exact ⟨bounds, heq, hchain⟩
    | true =>
      obtain ⟨hstream, hsize⟩ := hmid rfl
      have hlen5 : 5 ≤ (pre.drop start).length := isInsStream_length hstream
      have hlendrop : (pre.drop start).length = pre.length - start := by
        simp [List.length_drop]
      have hbound : start + 5 ≤ pre.length := by omega
      cases rest with
      | nil =>
        have hpre : insBytes = pre := by simpa using hbytes
        have hgn : getNextInstructionBounds insBytes pre.length = .endOfStream :=
          getNext_endOfStream insBytes pre.length (by rw [hpre]; omega)
        simp only [Bool.cond_true]
        simp only [gbbLoop, hgn]
        refine ⟨[(start, pre.length - 1)], rfl, ?_⟩
        refine goodChain_singleton ?_ ?_
        · exact goodChunk_push insBytes pre [] start k (by simp [hpre]) hstream hsize
        · rw [hpre]
      | cons r rest2 =>
        have hr : IsIns r := hall r (by simp)
        have hgn : getNextInstructionBounds insBytes pre.length =
            .ok pre.length (pre.length + r.length - 1) :=
          getNext_ins insBytes pre r rest2.flatten (by simpa using hbytes) hr
        have hrlen : r.length = 5 ∨ r.length = 6 := isIns_length hr
        simp only [Bool.cond_true]
        simp only [gbbLoop, hgn]
        by_cases hbreak : pre.length + r.length - 1 ≥ start + k
        · -- the next instruction overflows the chunk: push and start a new one
          rw [if_pos hbreak]
          have h1 : pre.length - 1 + 1 = pre.length := by omega
          rw [h1]
          obtain ⟨bounds, heq, hchain⟩ := ih false (r :: rest2) pre pre.length
            (acc ++ [(start, pre.length - 1)]) hall hbytes
            (by simp only [Bool.cond_false]; simp only [Bool.cond_true] at hfuel; omega)
            (by intro _; exact ⟨by simp, rfl⟩)
            (by intro h; cases h)
          simp only [Bool.cond_false] at heq
          refine ⟨(start, pre.length - 1) :: bounds, ?_, ?_⟩
          · rw [heq]
            simp
          · refine goodChain_cons ?_ ?_
            · exact goodChunk_push insBytes pre (r :: rest2).flatten start k hbytes hstream hsize
            · rw [h1]
              exact hchain
        · -- the instruction still fits: extend the current chunk
          rw [if_neg hbreak]
          have hE : pre.length + r.length - 1 + 1 = (pre ++ r).length := by
            simp
            omega
          have hE2 : pre.length + r.length - 1 = (pre ++ r).length - 1 := by
            simp
          rw [hE, hE2]
          obtain ⟨bounds, heq, hchain⟩ := ih true rest2 (pre ++ r) start acc
            (fun i hi => hall i (by simp [hi]))
            (by rw [hbytes]; simp)
            (by simp only [Bool.cond_true] at hfuel ⊢; simp only [List.length_cons] at hfuel; omega)
            (by intro h; cases h)
            (by
              intro _
              constructor
              · rw [drop_append_of_le pre r start (by omega)]
                exact isInsStream_append_ins hstream hr
              · simp
                omega)
          simp only [Bool.cond_true] at heq
          exact ⟨bounds, heq, hchain⟩

/-! ## Facts about the numerical-steps specification -/

lemma penEnd_cons (i : List Nat) (t : List (List Nat)) (pen : Bool) :
    penEnd (i :: t) pen = penEnd t (penAfter i pen) := rfl

lemma penEnd_append (q1 q2 : List (List Nat)) (pen : Bool) :
    penEnd (q1 ++ q2) pen = penEnd q2 (penEnd q1 pen) := by
  unfold penEnd
  rw [List.foldl_append]

lemma specSteps_append (q1 q2 : List (List Nat)) (pen : Bool) :
    specNumericalSteps (q1 ++ q2) pen =
      specNumericalSteps q1 pen ++ specNumericalSteps q2 (penEnd q1 pen) := by
  induction q1 generalizing pen with
  | nil => rfl
  | cons i t ih =>
    simp only [List.cons_append, specNumericalSteps, List.append_eq]
    rw [ih, penEnd_cons]

/-- The first instruction of a byte stream determines its own bytes: two
instruction-led decompositions of the same stream agree on the head. -/
lemma isIns_head_eq (i j suf suf2 : List Nat) (hi : IsIns i) (hj : IsIns j)
    (heq : i ++ suf = j ++ suf2) : i = j ∧ suf = suf2 := by
  rcases hi with ⟨a0, a1, a2, a3, _, _, _, _, rfl⟩ | ⟨a0, a1, a2, a3, pa, _, _, _, _, hpa, rfl⟩ <;>
    rcases hj with ⟨b0, b1, b2, b3, _, _, _, _, rfl⟩ |
      ⟨b0, b1, b2, b3, pb, _, _, _, _, hpb, rfl⟩ <;>
    simp only [List.cons_append, List.nil_append, List.cons.injEq] at heq
  · obtain ⟨rfl, rfl, rfl, rfl, -, hsuf⟩ := heq
    exact ⟨rfl, hsuf⟩
  · obtain ⟨-, -, -, -, h12, -⟩ := heq
    rcases hpb with rfl | rfl <;> exact absurd h12 (by norm_num)
  · obtain ⟨-, -, -, -, h12, -⟩ := heq
    rcases hpa with rfl | rfl <;> exact absurd h12 (by norm_num)
  · obtain ⟨rfl, rfl, rfl, rfl, rfl, -, hsuf⟩ := heq
    exact ⟨rfl, hsuf⟩

/-- A byte stream decomposes into complete instructions in at most one
way. -/
lemma streams_unique : ∀ q1 q2 : List (List Nat), (∀ i ∈ q1, IsIns i) →
    (∀ i ∈ q2, IsIns i) → q1.flatten = q2.flatten → q1 = q2 := by
  intro q1
  induction q1 with
  | nil =>
    intro q2 _ h2 heq
    cases q2 with
    | nil => rfl
    | cons j t =>
      exfalso
      have hj : j ≠ [] := isIns_ne_nil (h2 j (by simp))
      simp only [List.flatten_nil, List.flatten_cons] at heq
      exact hj (List.append_eq_nil.mp heq.symm).1
  | cons i t ih =>
    intro q2 h1 h2 heq
    cases q2 with
    | nil =>
      exfalso
      have hi : i ≠ [] := isIns_ne_nil (h1 i (by simp))
      simp only [List.flatten_nil, List.flatten_cons] at heq
      exact hi (List.append_eq_nil.mp heq).1
    | cons j t2 =>
      simp only [List.flatten_cons] at heq
      obtain ⟨rfl, hsuf⟩ := isIns_head_eq i j t.flatten t2.flatten
        (h1 i (by simp)) (h2 j (by simp)) heq
      rw [ih t2 (fun a ha => h1 a (by simp [ha])) (fun a ha => h2 a (by simp [ha])) hsuf]

/-- One iteration of the decoding walk of `parse_to_numerical_steps` at
the start of a complete instruction: the decoded triple carries the
latched pen state after this instruction, and the loop stops exactly when
the instruction ends at the chunk's end index. -/
lemma parseInsLoop_step (bytes : List Nat) (eIdx fuel : Nat) (pre i suf2 : List Nat)
    (pen : Bool) (acc : List (Int × Int × Bool)) (hi : IsIns i)
    (hb : bytes = pre ++ (i ++ suf2)) :
    parseInsLoop bytes eIdx (fuel + 1) pre.length pen acc =
      if pre.length + i.length - 1 = eIdx then
        .ok (acc ++ [(toI16 (i.getD 0 0) (i.getD 1 0), toI16 (i.getD 2 0) (i.getD 3 0),
          penAfter i pen)], penAfter i pen)
      else
        parseInsLoop bytes eIdx fuel (pre.length + i.length) (penAfter i pen)
          (acc ++ [(toI16 (i.getD 0 0) (i.getD 1 0), toI16 (i.getD 2 0) (i.getD 3 0),
            penAfter i pen)]) := by
  have hgn := getNext_ins bytes pre i suf2 hb hi
  have hbj : ∀ j : Nat, j < i.length → bytes.getD (pre.length + j) 0 = i.getD j 0 := by
    intro j hj
    rw [hb, getD_append_right _ _ _ (by omega)]
    have hj2 : pre.length + j - pre.length = j := by omega
    rw [hj2, getD_append_left _ _ _ hj]
  have h0 : bytes.getD pre.length 0 = i.getD 0 0 := by
    have := hbj 0 (by rcases isIns_length hi with h | h <;> omega)
    simpa using this
  have h1 : bytes.getD (pre.length + 1) 0 = i.getD 1 0 :=
    hbj 1 (by rcases isIns_length hi with h | h <;> omega)
  have h2 : bytes.getD (pre.length + 2) 0 = i.getD 2 0 :=
    hbj 2 (by rcases isIns_length hi with h | h <;> omega)
  have h3 : bytes.getD (pre.length + 3) 0 = i.getD 3 0 :=
    hbj 3 (by rcases isIns_length hi with h | h <;> omega)
  have h4 : bytes.getD (pre.length + 4) 0 = i.getD 4 0 :=
    hbj 4 (by rcases isIns_length hi with h | h <;> omega)
  rcases hi with ⟨b0, b1, b2, b3, _, _, _, _, rfl⟩ | ⟨b0, b1, b2, b3, p, _, _, _, _, hp, rfl⟩
  · -- five-byte instruction: terminator at offset 4, pen state inherited
    have hterm : bytes.getD (pre.length + 4) 0 = 0x0C := by rw [h4]; rfl
    have hpa : penAfter [b0, b1, b2, b3, 0x0C] pen = pen := by
      unfold penAfter
      norm_num
    have hcond : pre.length + 4 = pre.length + [b0, b1, b2, b3, 0x0C].length - 1 ∧
        bytes.getD (pre.length + 4) 0 = 0x0C := ⟨by simp, hterm⟩
    have heb : pre.length + [b0, b1, b2, b3, 0x0C].length - 1 + 1 =
        pre.length + [b0, b1, b2, b3, 0x0C].length := by simp
    simp only [parseInsLoop, hgn]
    rw [if_pos hcond, h0, h1, h2, h3, hpa, heb]
  · -- six-byte instruction: pen-op byte at offset 4
    have hb4 : bytes.getD (pre.length + 4) 0 = p := by rw [h4]; rfl
    have heb : pre.length + [b0, b1, b2, b3, p, 0x0C].length - 1 + 1 =
        pre.length + [b0, b1, b2, b3, p, 0x0C].length := by simp
    have hnc : ¬ (pre.length + 4 = pre.length + [b0, b1, b2, b3, p, 0x0C].length - 1 ∧
        bytes.getD (pre.length + 4) 0 = 0x0C) := by
      intro hcon
      have := hcon.1
      simp at this
    simp only [parseInsLoop, hgn]
    rw [if_neg hnc]
    rcases hp with rfl | rfl
    · have hpa : penAfter [b0, b1, b2, b3, 0x0A, 0x0C] pen = true := by
        unfold penAfter
        norm_num
      have hyes : bytes.getD (pre.length + 4) 0 = 0x0A := hb4
      rw [if_pos hyes, h0, h1, h2, h3, hpa, heb]
    · have hpa : penAfter [b0, b1, b2, b3, 0x0B, 0x0C] pen = false := by
        unfold penAfter
        norm_num
      have hno : ¬ (bytes.getD (pre.length + 4) 0 = 0x0A) := by
        rw [hb4]
        norm_num
      have hyes : bytes.getD (pre.length + 4) 0 = 0x0B := hb4
      rw [if_neg hno, if_pos hyes, h0, h1, h2, h3, hpa, heb]

/-- The decoding walk over one whole chunk: starting at the first byte of
the chunk's first instruction and ending at the chunk's last byte, it
appends exactly the specified triples and returns the latched pen state
after the chunk. -/
lemma parseInsLoop_spec (bytes : List Nat) :
    ∀ (q : List (List Nat)) (fuel : Nat) (pre suf : List Nat) (pen : Bool)
      (acc : List (Int × Int × Bool)),
      q ≠ [] → (∀ i ∈ q, IsIns i) → bytes = pre ++ (q.flatten ++ suf) →
      q.length + 1 ≤ fuel →
      parseInsLoop bytes (pre.length + q.flatten.length - 1) fuel pre.length pen acc =
        .ok (acc ++ specNumericalSteps q pen, penEnd q pen) := by
  intro q
  induction q with
  | nil => intro fuel pre suf pen acc hne _ _ _; exact absurd rfl hne
  | cons i t ih =>
    intro fuel pre suf pen acc _ hall hb hfuel
    obtain ⟨f, rfl⟩ : ∃ f, fuel = f + 1 := ⟨fuel - 1, by omega⟩
    have hi : IsIns i := hall i (by simp)
    have hb2 : bytes = pre ++ (i ++ (t.flatten ++ suf)) := by
      rw [hb]
      simp
    have hstep := parseInsLoop_step bytes (pre.length + (i :: t).flatten.length - 1) f pre i
      (t.flatten ++ suf) pen acc hi hb2
    rw [hstep]
    have hil : i.length = 5 ∨ i.length = 6 := isIns_length hi
    cases t with
    | nil =>
      have hcond : pre.length + i.length - 1 =
          pre.length + (i :: ([] : List (List Nat))).flatten.length - 1 := by
        simp
      rw [if_pos hcond]
      rfl
    | cons j t2 =>
      have hj5 : 5 ≤ (j :: t2).flatten.length :=
        isInsStream_length ⟨j :: t2, by simp, fun a ha => hall a (by simp [ha]), rfl⟩
      have hne2 : pre.length + i.length - 1 ≠
          pre.length + (i :: j :: t2).flatten.length - 1 := by
        simp only [List.flatten_cons, List.length_append] at hj5 ⊢
        omega
      rw [if_neg hne2]
      have hpre : pre.length + i.length = (pre ++ i).length := by simp
      have heidx : pre.length + (i :: j :: t2).flatten.length - 1 =
          (pre ++ i).length + (j :: t2).flatten.length - 1 := by
        simp only [List.flatten_cons, List.length_append]
        omega
      rw [hpre, heidx]
      rw [ih f (pre ++ i) suf (penAfter i pen)
        (acc ++ [(toI16 (i.getD 0 0) (i.getD 1 0), toI16 (i.getD 2 0) (i.getD 3 0),
          penAfter i pen)])
        (by simp) (fun a ha => hall a (by simp [ha]))
        (by rw [hb]; simp) (by simp at hfuel ⊢; omega)]
      simp only [specNumericalSteps, penEnd_cons, List.append_assoc, List.cons_append,
        List.nil_append]

/-- Destructor for a `GoodChain` headed by `(s, e)`. -/
lemma goodChain_cons_elim {k : Nat} {bytes : List Nat} {s0 s e : Nat} {tl : List (Nat × Nat)}
    (h : GoodChain k bytes s0 ((s, e) :: tl)) :
    s = s0 ∧ GoodChunk k bytes (s, e) ∧
      (tl = [] → e = bytes.length - 1) ∧ (tl ≠ [] → GoodChain k bytes (e + 1) tl) := by
  obtain ⟨hne, hhead, hchain, hlast, hall⟩ := h
  refine ⟨by simpa using hhead, hall (s, e) (by simp), ?_, ?_⟩
  · intro h0
    subst h0
    simpa using hlast
  · intro hne2
    cases tl with
    | nil => exact absurd rfl hne2
    | cons b tl2 =>
      obtain ⟨hr, hch⟩ := List.chain'_cons.mp hchain
      refine ⟨by simp, by simp [hr], hch, ?_, ?_⟩
      · simpa [List.getLast?_cons_cons] using hlast
      · intro p hp
        exact hall p (by simp [hp])

/-- Splitting a list at `m ≥ n`: the slice `[n, m)` followed by the tail
from `m` is the tail from `n`. -/
lemma take_drop_split (l : List Nat) (n m : Nat) (hnm : n ≤ m) (hml : m ≤ l.length) :
    (l.take m).drop n ++ l.drop m = l.drop n := by
  conv_rhs => rw [← List.take_append_drop m l]
  rw [drop_append_of_le _ _ _ (by rw [List.length_take]; omega)]

/-- The chunk loop of `parse_to_numerical_steps` over a `GoodChain` of
bounds starting at `s0` decodes exactly the instructions of the byte
suffix from `s0`, threading the latched pen state across chunks. -/
lemma parseChunks_spec (k : Nat) (bytes : List Nat) :
    ∀ (bounds : List (Nat × Nat)) (s0 : Nat) (pen : Bool) (acc : List (Int × Int × Bool)),
      GoodChain k bytes s0 bounds →
      ∃ Q : List (List Nat), Q ≠ [] ∧ (∀ i ∈ Q, IsIns i) ∧
        bytes.drop s0 = Q.flatten ∧
        parseChunks bytes bounds pen acc = .ok (acc ++ specNumericalSteps Q pen) := by
  intro bounds
  induction bounds with
  | nil => intro s0 pen acc h; exact absurd rfl h.1
  | cons hd tl ih =>
    obtain ⟨s, e⟩ := hd
    intro s0 pen acc h
    obtain ⟨rfl, hchunk, hlastnil, htail⟩ := goodChain_cons_elim h
    obtain ⟨hse, hsize, hstream, hterm⟩ := hchunk
    obtain ⟨q, hqne, hqall, hq⟩ := hstream
    have hq5 : 5 ≤ q.flatten.length := by
      rw [← hq]
      exact isInsStream_length ⟨q, hqne, hqall, hq⟩
    have hslicelen : (sliceIncl bytes s e).length = min (e + 1) bytes.length - s := by
      simp [sliceIncl]
    -- e is always within the stream: for the last chunk via the chain's
    -- final index, for the others because the rest of the stream holds at
    -- least one more instruction
    have helt : e < bytes.length := by
      cases tl with
      | nil =>
        have he := hlastnil rfl
        rw [hq] at hslicelen
        omega
      | cons b tl2 =>
        obtain ⟨Q2, hQ2ne, hQ2all, hQ2f, -⟩ :=
          ih (e + 1) (penEnd q pen) (acc ++ specNumericalSteps q pen) (htail (by simp))
        have h5 : 5 ≤ Q2.flatten.length := isInsStream_length ⟨Q2, hQ2ne, hQ2all, rfl⟩
        rw [← hQ2f] at h5
        simp only [List.length_drop] at h5
        omega
    have hmin : min (e + 1) bytes.length = e + 1 := by omega
    have hflen : q.flatten.length = e + 1 - s := by
      rw [hq] at hslicelen
      omega
    have hsplit : (bytes.take (e + 1)).drop s ++ bytes.drop (e + 1) = bytes.drop s :=
      take_drop_split bytes s (e + 1) (by omega) (by omega)
    have hdrops : bytes.drop s = q.flatten ++ bytes.drop (e + 1) := by
      rw [← hsplit]
      unfold sliceIncl at hq
      rw [hq]
    have htakelen : (bytes.take s).length = s := by
      rw [List.length_take]
      omega
    have hdecomp : bytes = bytes.take s ++ (q.flatten ++ bytes.drop (e + 1)) := by
      conv_lhs => rw [← List.take_append_drop s bytes]
      rw [hdrops]
    have hqlen : q.length + 1 ≤ bytes.length + 1 := by
      have := flatten_length_ge hqall
      omega
    have hplay := parseInsLoop_spec bytes q (bytes.length + 1) (bytes.take s)
      (bytes.drop (e + 1)) pen acc hqne hqall hdecomp hqlen
    rw [htakelen] at hplay
    have heidx : s + q.flatten.length - 1 = e := by omega
    rw [heidx] at hplay
    simp only [parseChunks]
    rw [hplay]
    cases tl with
    | nil =>
      have he := hlastnil rfl
      have hdone : bytes.drop (e + 1) = [] := List.drop_eq_nil_of_le (by omega)
      refine ⟨q, hqne, hqall, ?_, ?_⟩
      · rw [hdrops, hdone, List.append_nil]
      · simp only [parseChunks]
    | cons b tl2 =>
      obtain ⟨Q2, hQ2ne, hQ2all, hQ2f, hQ2parse⟩ :=
        ih (e + 1) (penEnd q pen) (acc ++ specNumericalSteps q pen) (htail (by simp))
      refine ⟨q ++ Q2, by simp [hqne], ?_, ?_, ?_⟩
      · intro a ha
        rcases List.mem_append.mp ha with ha | ha
        · exact hqall a ha
        · exact hQ2all a ha
      · rw [hdrops, hQ2f, List.flatten_append]
      · show parseChunks bytes (b :: tl2) (penEnd q pen) (acc ++ specNumericalSteps q pen) =
          RunResult.ok (acc ++ specNumericalSteps (q ++ Q2) pen)
        rw [hQ2parse, specSteps_append]
        simp [List.append_assoc]

/-! ## Claim theorems -/

/-- C2 (code_bug): the claim — and the specification's grammar — say that
a byte vector ending in a trailing partial instruction (a non-empty
suffix of 1 to 4 bytes after the last complete instruction, or a whole
stream shorter than one instruction) is rejected by `InstructionSet::new`
with the `IncompleteInstructions` error.  The code instead accepts all of
them: `is_stream_valid`'s loop exits successfully as soon as
`c_idx + 4 >= len`, silently skipping up to four trailing bytes.  This
theorem evaluates the embedded code on three such inputs: a one-byte
trailing partial, a four-byte trailing partial, and a whole stream of
three bytes; all validate. -/
theorem c2_trailing_partial_accepted :
    isStreamValid [0x0A, 0x0B, 0x2A, 0x3A, 0x0C, 0x00] = .ok () ∧
    isStreamValid [0x0A, 0x0B, 0x2A, 0x3A, 0x0C, 1, 2, 3, 4] = .ok () ∧
    isStreamValid [0, 0, 0] = .ok () ∧
    instructionSetNew [0x0A, 0x0B, 0x2A, 0x3A, 0x0C, 0x00] =
      .ok [0x0A, 0x0B, 0x2A, 0x3A, 0x0C, 0x00] := by
  decide

/-- C10 (code_bug): the claim says `InstructionSet::new` and
`get_next_instruction_bounds` never panic, naming the stream
`00 00 00 00 0A` as the candidate counterexample.  On exactly that input
both functions index one byte past the end of the vector: the pen-op
byte `0x0A` at index 4 makes the walk look for a terminator at index 5,
which does not exist, so the Rust code panics with an out-of-bounds
index (modelled by `panicOOB 5`). -/
theorem c10_pen_op_at_end_panics :
    isStreamValid [0, 0, 0, 0, 0x0A] = .panicOOB 5 ∧
    getNextInstructionBounds [0, 0, 0, 0, 0x0A] 0 = .panicOOB 5 ∧
    instructionSetNew [0, 0, 0, 0, 0x0A] = .panicOOB 5 ∧
    isStreamValid [0, 0, 0, 0, 0x0B] = .panicOOB 5 := by
  decide

/-- C4 (code_bug): the claim — scenario S4 of the specification — says
`ClientState::new` refuses a greeting whose header reports
`instruction_buffer_size < 1024` with `InsBufferSmall`.  The code parses
the header (the size is indeed the big-endian u32 at bytes 7–10: the
first conjunct shows a header reporting 512 parses to 512) but performs
no size check at all and proceeds; moreover no execution path of
`ClientState::new` can produce the `InsBufferSmall` variant (second
conjunct: every greeting buffer is either accepted or `MachineInUse`). -/
theorem c4_no_buffer_size_check :
    clientGreeting [1, 0, 1, 0, 0, 0, 0, 0, 0, 2, 0, 0, 0, 0, 0, 0, 0, 0, 0] =
      .accepted 1 512 0 0 ∧
    ∀ buf : List Nat, clientGreeting buf = .machineInUse ∨
      ∃ pv ibs mms mpw, clientGreeting buf = .accepted pv ibs mms mpw := by
  refine ⟨by decide, fun buf => ?_⟩
  by_cases h : buf.getD 0 0 = 0x01
  · refine Or.inr ⟨(readHeader buf).1, (readHeader buf).2.1, (readHeader buf).2.2.1,
      (readHeader buf).2.2.2, ?_⟩
    unfold clientGreeting
    rw [if_pos h]
  · refine Or.inl ?_
    unfold clientGreeting
    rw [if_neg h]
    split <;> rfl

/-- C7 counterexample: the claim says `get_buffer_bounds(k)` with `k < 8`
returns `BufferTooSmall(k)` regardless of prior calls, the memoisation
being per `max_chunk_size`.  The cache is in fact a single unkeyed
`OnceCell`: after a successful call with `max_chunk_size = 11` has filled
it, a call with `max_chunk_size = 7` returns the cached bounds computed
for size 11 instead of `BufferTooSmall(7)`. -/
theorem c7_cache_ignores_chunk_size :
    getBufferBoundsCached none stream15 11 =
      (.ok [(0, 9), (10, 14)], some [(0, 9), (10, 14)]) ∧
    getBufferBoundsCached (some [(0, 9), (10, 14)]) stream15 7 =
      (.ok [(0, 9), (10, 14)], some [(0, 9), (10, 14)]) := by
  decide

/-- C7 (corrected): with an empty cache (no prior successful call) a
`max_chunk_size < 8` does fail with `BufferTooSmall` of that size, and
the failure leaves the cache empty; but once the cache holds bounds,
every later call returns exactly the cached bounds, whatever its
`max_chunk_size` argument. -/
theorem c7_buffer_too_small_first_call :
    (∀ (insBytes : List Nat) (k : Nat), k < 8 →
      getBufferBoundsCached none insBytes k = (.err (.bufferTooSmall k), none)) ∧
    (∀ (insBytes : List Nat) (k : Nat) (v : List (Nat × Nat)),
      getBufferBoundsCached (some v) insBytes k = (.ok v, some v)) := by
  constructor
  · intro insBytes k hk
    simp [getBufferBoundsCached, computeBufferBounds, hk]
  · intro insBytes k v
    rfl

/-- C7 witness: `get_buffer_bounds(7)` on a fresh instruction set returns
`BufferTooSmall(7)` (the specification's boundary test), and a populated
cache is returned unchanged by a later call with another size. -/
theorem c7_buffer_too_small_first_call_witness :
    getBufferBoundsCached none stream15 7 = (.err (.bufferTooSmall 7), none) ∧
    getBufferBoundsCached (some [(0, 9), (10, 14)]) stream15 64 =
      (.ok [(0, 9), (10, 14)], some [(0, 9), (10, 14)]) :=
  ⟨c7_buffer_too_small_first_call.1 stream15 7 (by norm_num),
    c7_buffer_too_small_first_call.2 stream15 64 [(0, 9), (10, 14)]⟩

/-- C1 counterexample: the claim quantifies over every stream accepted by
`InstructionSet::new`.  Because the validator accepts the degenerate
four-byte stream `00 00 00 00` (see C2), that stream is in the claim's
domain, yet `get_buffer_bounds(8)` returns the single pair `(0, 0)`:
its last end is byte 0, not the final byte index 3, and byte 0 holds
`0x00`, not the terminator `0x0C` — so the claimed partition property
fails on an accepted stream. -/
theorem c1_degenerate_accepted_stream :
    instructionSetNew [0, 0, 0, 0] = .ok [0, 0, 0, 0] ∧
    computeBufferBounds [0, 0, 0, 0] 8 = .ok [(0, 0)] ∧
    [(0, 0)].getLast?.map Prod.snd = some 0 ∧
    ([0, 0, 0, 0] : List Nat).length - 1 = 3 ∧
    ((0 : Nat) == 3) = false ∧
    (([0, 0, 0, 0] : List Nat).getD 0 0 == 0x0C) = false := by
  decide

set_option maxRecDepth 8192 in
/-- C3 counterexample: a completed pull-driven session over one chunk.
The firmware sends `0x03` twice; the host answers with `0x01`, the chunk,
then the terminator `0x02`, shuts the write half down and stops — but the
emitted progress strings (exactly one, the per-chunk message) never
mention `drawing_finished`: the code emits no such event at completion
(no `drawing_finished` string exists anywhere in the source), refuting
"emitted exactly once". -/
theorem c3_no_drawing_finished_event :
    listenRun stream5 [(0, 4)] 0 [[0x03], [0x03]] =
      ([[0x01], [0x0A, 0x0B, 0x2A, 0x3A, 0x0C], [0x02]], [emitMsg 1 1], true, 2) ∧
    (listenRun stream5 [(0, 4)] 0 [[0x03], [0x03]]).2.1.countP
      (fun m => decide ("drawing_finished".toList <:+: m.toList)) = 0 := by
  decide

/-- Invariant lemma for the listen loop: from chunk index `i`, a run of
`bounds.length + 1 - i` firmware requests sends the remaining chunks in
order, then the terminator, shuts down, and emits one per-chunk progress
message for each chunk sent. -/
lemma listenRun_aux (binary : List Nat) (bounds : List (Nat × Nat)) (extra : List (List Nat)) :
    ∀ (d i : Nat), i + d = bounds.length →
      listenRun binary bounds i (List.replicate (bounds.length + 1 - i) [0x03] ++ extra) =
        (((bounds.drop i).map (fun p => [[0x01], sliceIncl binary p.1 p.2])).flatten ++ [[0x02]],
         (List.range' (i + 1) (bounds.length - i)).map (fun j => emitMsg j bounds.length),
         true, bounds.length + 1) := by
  intro d
  induction d with
  | zero =>
    intro i hi
    have h1 : bounds.length + 1 - i = 1 := by omega
    rw [h1]
    simp only [List.replicate, List.cons_append, List.nil_append]
    simp only [listenRun]
    have hpk : ([3] : List Nat).getD 0 0 = 3 := rfl
    have hdone : i + 1 - 1 = bounds.length := by omega
    rw [if_pos hpk, if_pos hdone]
    have h2 : bounds.drop i = [] := List.drop_eq_nil_of_le (by omega)
    have h3 : bounds.length - i = 0 := by omega
    have h4 : i = bounds.length := by omega
    rw [h2, h3, h4]
    simp [List.range']
  | succ d2 ih =>
    intro i hi
    have hlt : i < bounds.length := by omega
    have h1 : bounds.length + 1 - i = (bounds.length + 1 - (i + 1)) + 1 := by omega
    rw [h1]
    simp only [List.replicate, List.cons_append]
    simp only [listenRun]
    have hpk : ([3] : List Nat).getD 0 0 = 3 := rfl
    have hnotdone : ¬ (i + 1 - 1 = bounds.length) := by omega
    rw [if_pos hpk, if_neg hnotdone]
    rw [ih (i + 1) (by omega)]
    have hgd : bounds.getD (i + 1 - 1) (0, 0) = bounds[i] := by
      have : i + 1 - 1 = i := by omega
      rw [this]
      simp [List.getD_eq_getElem?_getD, List.getElem?_eq_getElem hlt]
    rw [hgd]
    have hdrop : bounds.drop i = bounds[i] :: bounds.drop (i + 1) :=
      List.drop_eq_getElem_cons hlt
    have hrange : List.range' (i + 1) (bounds.length - i) =
        (i + 1) :: List.range' (i + 2) (bounds.length - (i + 1)) := by
      have h4 : bounds.length - i = (bounds.length - (i + 1)) + 1 := by omega
      rw [h4]
      rfl
    rw [hdrop, hrange]
    simp only [List.map_cons, List.flatten_cons, List.cons_append, List.append_assoc]
    rfl

/-- C3 (corrected): during a Running session over an instruction set with
`N` buffered chunks, starting from chunk index 0, the listen loop answers
each of the first `N` firmware `0x03` requests by writing `0x01` followed
by exactly the bytes of the next chunk in order, on the `(N+1)`-th `0x03`
writes the single terminator byte `0x02`, shuts the write half down and
stops listening (later packets are left unread); but the only progress
events emitted are the `N` per-chunk drawing messages, emitted before
each chunk — no `drawing_finished` event exists (the correction the
counterexample forces). -/
theorem c3_pull_driven_loop (binary : List Nat) (bounds : List (Nat × Nat))
    (extra : List (List Nat)) :
    listenRun binary bounds 0 (List.replicate (bounds.length + 1) [0x03] ++ extra) =
      ((bounds.map (fun p => [[0x01], sliceIncl binary p.1 p.2])).flatten ++ [[0x02]],
       (List.range' 1 bounds.length).map (fun j => emitMsg j bounds.length),
       true, bounds.length + 1) := by
  have := listenRun_aux binary bounds extra bounds.length 0 (by omega)
  simpa using this

/-- On a grammar-valid stream and a `max_chunk_size ≥ 8`, the chunking
computation of `get_buffer_bounds` succeeds and its output satisfies the
full partition property `GoodChain`. -/
lemma computeBufferBounds_good (inss : List (List Nat)) (insBytes : List Nat) (k : Nat)
    (hne : inss ≠ []) (hall : ∀ i ∈ inss, IsIns i) (hb : insBytes = inss.flatten)
    (hk : 8 ≤ k) :
    ∃ bounds, computeBufferBounds insBytes k = .ok bounds ∧ GoodChain k insBytes 0 bounds := by
  have hlen : 5 * inss.length ≤ insBytes.length := hb ▸ flatten_length_ge hall
  have hone : 1 ≤ inss.length := by
    cases inss with
    | nil => exact absurd rfl hne
    | cons a b => simp
  obtain ⟨bounds, heq, hchain⟩ := gbbLoop_main insBytes k hk (2 * insBytes.length + 2) false
    inss [] 0 [] hall (by simpa using hb)
    (by simp only [Bool.cond_false]; omega)
    (by intro _; exact ⟨hne, rfl⟩)
    (by intro h; cases h)
  simp only [Bool.cond_false, List.length_nil] at heq
  refine ⟨bounds, ?_, hchain⟩
  unfold computeBufferBounds
  rw [if_neg (by omega)]
  simpa using heq

/-- C1 (corrected): for every stream that is a concatenation of one or
more complete instructions (the specification's grammar — the domain the
counterexample forces in place of "accepted by `InstructionSet::new`",
because the buggy validator also accepts non-streams) and every
`max_chunk_size k ≥ 8` (so every instruction, spanning at most 6 bytes,
fits), `get_buffer_bounds(k)` succeeds and returns an ordered list of
inclusive `(start, end)` pairs that is contiguous and non-overlapping
(each next start is the previous end plus one), starts at byte 0, ends
at the final byte index, has every chunk spanning at most `k` bytes, and
every chunk a concatenation of complete instructions ending at the
terminator `0x0C` — the conjunction packaged by `GoodChain`. -/
theorem c1_buffer_bounds_partition (inss : List (List Nat)) (insBytes : List Nat) (k : Nat)
    (hne : inss ≠ []) (hall : ∀ i ∈ inss, IsIns i) (hb : insBytes = inss.flatten)
    (hk : 8 ≤ k) :
    ∃ bounds, computeBufferBounds insBytes k = .ok bounds ∧ GoodChain k insBytes 0 bounds :=
  computeBufferBounds_good inss insBytes k hne hall hb hk

/-- C1 witness: the scenario-S1 instance.  On the 15-byte three-
instruction stream, `get_buffer_bounds(11)` returns `[(0, 9), (10, 14)]`,
and that output has the full partition property. -/
theorem c1_buffer_bounds_partition_witness :
    computeBufferBounds stream15 11 = .ok [(0, 9), (10, 14)] ∧
    GoodChain 11 stream15 0 [(0, 9), (10, 14)] := by
  have h5 : IsIns [0x0A, 0x0B, 0x2A, 0x3A, 0x0C] :=
    Or.inl ⟨0x0A, 0x0B, 0x2A, 0x3A, by norm_num, by norm_num, by norm_num, by norm_num, rfl⟩
  obtain ⟨bounds, heq, hchain⟩ := c1_buffer_bounds_partition
    [[0x0A, 0x0B, 0x2A, 0x3A, 0x0C], [0x0A, 0x0B, 0x2A, 0x3A, 0x0C],
      [0x0A, 0x0B, 0x2A, 0x3A, 0x0C]] stream15 11 (by simp)
    (by intro i hi; simp at hi; rcases hi with rfl | rfl | rfl <;> exact h5)
    (by decide) (by norm_num)
  have hcomp : computeBufferBounds stream15 11 = .ok [(0, 9), (10, 14)] := by decide
  rw [heq] at hcomp
  injection hcomp with hbounds
  exact ⟨by decide, hbounds ▸ hchain⟩

/-- Decoding the two big-endian bytes of an in-range `i16` recovers it. -/
lemma toI16_i16Bytes (v : Int) (h1 : -32768 ≤ v) (h2 : v ≤ 32767) :
    toI16 ((i16Bytes v).getD 0 0) ((i16Bytes v).getD 1 0) = v := by
  unfold toI16 i16Bytes
  simp only [List.getD_cons_zero, List.getD_cons_succ]
  split <;> omega

/-- A float step count strictly inside `(i16::MIN, i16::MAX)` rounds to a
representable `i16`. -/
lemma rustRound_range (x : ℝ) (h1 : -32768 < x) (h2 : x < 32767) :
    -32768 ≤ rustRound x ∧ rustRound x ≤ 32767 := by
  unfold rustRound
  split
  · constructor
    · have : (0 : Int) ≤ ⌊x + 1 / 2⌋ := by
        apply Int.le_floor.mpr
        push_cast
        linarith
      omega
    · have : ⌊x + 1 / 2⌋ < 32768 := by
        apply Int.floor_lt.mpr
        push_cast
        linarith
      omega
  · constructor
    · have : ⌊-x + 1 / 2⌋ < 32769 := by
        apply Int.floor_lt.mpr
        push_cast
        linarith
      omega
    · have : (0 : Int) ≤ ⌊-x + 1 / 2⌋ := by
        apply Int.le_floor.mpr
        push_cast
        linarith
      omega

lemma stepsPerMm_pos : 0 < stepsPerMm := by
  unfold stepsPerMm
  have := Real.pi_pos
  positivity

lemma stepsPerMm_lt_100 : stepsPerMm < 100 := by
  unfold stepsPerMm
  rw [div_lt_iff₀ (by have := Real.pi_pos; positivity)]
  nlinarith [Real.pi_gt_three]

/-- C5 (corrected): for a surface with a recorded first sample, a
`sample_xy` call fails with the step-overflow error exactly when one of
the two float step counts is `≥ i16::MAX` or `≤ i16::MIN` — equivalently,
exactly when it is NOT in the open interval `(-32768, 32767)`; the claim
wrongly included the endpoints in the success region.  On failure the
whole surface (bytes and belts) is returned untouched; on success
exactly one five-byte instruction (the two big-endian step pairs and the
terminator `0x0C`) is appended and the belts move by the left rounded
step and the `i16` negation of the right rounded step — a negation that
wraps (release; debug panics) when the right step rounds to exactly
`i16::MIN = -32768`, which the guard's open interval still admits (any
float delta in `(-32768, -32767.5]` rounds half-away-from-zero to it), so
at that boundary the right belt moves by `-32768` instead of `32768`
steps. -/
theorem c5_sample_xy_overflow_boundary (ds : DrawSurface) (x y fx fy : ℝ)
    (h1 : ds.firstSampleX = some fx) (h2 : ds.firstSampleY = some fy) :
    ((sampleXY ds x y).1 = some .stepOverflow ↔
      ¬ (-32768 < (deltaSteps ds x y).1 ∧ (deltaSteps ds x y).1 < 32767 ∧
         -32768 < (deltaSteps ds x y).2 ∧ (deltaSteps ds x y).2 < 32767)) ∧
    ((sampleXY ds x y).1 = some .stepOverflow → (sampleXY ds x y).2 = ds) ∧
    ((sampleXY ds x y).1 = none →
      (sampleXY ds x y).2.currentIns =
        ds.currentIns ++ i16Bytes (rustRound (deltaSteps ds x y).1) ++
          i16Bytes (rustRound (deltaSteps ds x y).2) ++ [0x0C] ∧
      (sampleXY ds x y).2.belts =
        ds.belts.moveBySteps (rustRound (deltaSteps ds x y).1)
          (i16Neg (rustRound (deltaSteps ds x y).2))) := by
  have hnn : (ds.firstSampleX.isNone || ds.firstSampleY.isNone) = false := by
    rw [h1, h2]
    rfl
  by_cases hov : (deltaSteps ds x y).1 ≥ 32767 ∨ (deltaSteps ds x y).1 ≤ -32768 ∨
      (deltaSteps ds x y).2 ≥ 32767 ∨ (deltaSteps ds x y).2 ≤ -32768
  · have hres : sampleXY ds x y = (some .stepOverflow, ds) := by
      simp only [sampleXY, hnn, Bool.false_eq_true, if_false]
      rw [if_pos hov]
    rw [hres]
    refine ⟨iff_of_true rfl ?_, fun _ => rfl, fun hc => absurd hc (by simp)⟩
    intro hcon
    rcases hov with h | h | h | h <;> linarith [hcon.1, hcon.2.1, hcon.2.2.1, hcon.2.2.2]
  · have hres : sampleXY ds x y =
        (none,
          { ds with
            belts := ds.belts.moveBySteps (rustRound (deltaSteps ds x y).1)
              (i16Neg (rustRound (deltaSteps ds x y).2))
            currentIns := ds.currentIns ++ i16Bytes (rustRound (deltaSteps ds x y).1) ++
              i16Bytes (rustRound (deltaSteps ds x y).2) ++ [0x0C] }) := by
      simp only [sampleXY, hnn, Bool.false_eq_true, if_false]
      rw [if_neg hov]
    rw [hres]
    push_neg at hov
    exact ⟨iff_of_false (by simp)
        (not_not_intro ⟨hov.2.1, hov.1, hov.2.2.2, hov.2.2.1⟩),
      fun hc => absurd hc (by simp), fun _ => ⟨rfl, rfl⟩⟩

lemma cartesianToBelt_345 : (cartesianToBelt ((0 : ℝ) + 3) (0 + 4) 100).1 = 5 := by
  unfold cartesianToBelt
  have h25 : ((0 : ℝ) + 3) ^ 2 + (0 + 4) ^ 2 = 5 ^ 2 := by norm_num
  simp only [h25]
  exact Real.sqrt_sq (by norm_num)

/-- C5 counterexample: the claim says a delta of exactly `i16::MAX` steps
succeeds (the closed interval `[i16::MIN, i16::MAX]` is the success
region).  On `surfaceMax`, `sample_xy(3, 4)` computes float step counts
of exactly `(32767, 0)` — both inside the claimed closed interval — yet
the call fails with the step-overflow error, because the source tests
`delta_left_steps >= i16::MAX as f64`. -/
theorem c5_exact_i16_max_rejected :
    deltaSteps surfaceMax 3 4 = (32767, 0) ∧
    sampleXY surfaceMax 3 4 = (some .stepOverflow, surfaceMax) := by
  have hspm := stepsPerMm_pos
  have hd : deltaSteps surfaceMax 3 4 = (32767, 0) := by
    unfold deltaSteps surfaceMax dims0
    simp only [cartesianToBelt_345, Prod.mk.injEq]
    constructor
    · rw [sub_sub_cancel]
      exact div_mul_cancel₀ _ (ne_of_gt hspm)
    · rw [sub_self, zero_mul, neg_zero]
  refine ⟨hd, ?_⟩
  have hov : (deltaSteps surfaceMax 3 4).1 ≥ 32767 ∨ (deltaSteps surfaceMax 3 4).1 ≤ -32768 ∨
      (deltaSteps surfaceMax 3 4).2 ≥ 32767 ∨ (deltaSteps surfaceMax 3 4).2 ≤ -32768 := by
    rw [hd]
    norm_num
  have hnn : (surfaceMax.firstSampleX.isNone || surfaceMax.firstSampleY.isNone) = false := rfl
  simp only [sampleXY, hnn, Bool.false_eq_true, if_false]
  rw [if_pos hov]

/-- C5 witness: the amended theorem instantiated at `surfaceMax` and
`sample_xy(3, 4)`, whose recorded first sample is `(0, 0)`. -/
theorem c5_sample_xy_overflow_boundary_witness :
    ((sampleXY surfaceMax 3 4).1 = some .stepOverflow ↔
      ¬ (-32768 < (deltaSteps surfaceMax 3 4).1 ∧ (deltaSteps surfaceMax 3 4).1 < 32767 ∧
         -32768 < (deltaSteps surfaceMax 3 4).2 ∧ (deltaSteps surfaceMax 3 4).2 < 32767)) ∧
    ((sampleXY surfaceMax 3 4).1 = some .stepOverflow →
      (sampleXY surfaceMax 3 4).2 = surfaceMax) ∧
    ((sampleXY surfaceMax 3 4).1 = none →
      (sampleXY surfaceMax 3 4).2.currentIns =
        surfaceMax.currentIns ++ i16Bytes (rustRound (deltaSteps surfaceMax 3 4).1) ++
          i16Bytes (rustRound (deltaSteps surfaceMax 3 4).2) ++ [0x0C] ∧
      (sampleXY surfaceMax 3 4).2.belts =
        surfaceMax.belts.moveBySteps (rustRound (deltaSteps surfaceMax 3 4).1)
          (i16Neg (rustRound (deltaSteps surfaceMax 3 4).2))) :=
  c5_sample_xy_overflow_boundary surfaceMax 3 4 0 0 rfl rfl

/-- C6 (confirmed): on every grammar-valid instruction stream,
`parse_to_numerical_steps` returns exactly one `(left, right, pen_up)`
triple per instruction in stream order, where `left` and `right` are the
instruction's big-endian `i16` payload fields and `pen_up` is the latched
state: it starts `true`, is set `true` by each `0x0A` pen-op and `false`
by each `0x0B` pen-op, and is inherited unchanged by every five-byte
instruction — the list computed by `specNumericalSteps` with initial
state `true`. -/
theorem c6_parse_numerical_steps (inss : List (List Nat)) (insBytes : List Nat)
    (hne : inss ≠ []) (hall : ∀ i ∈ inss, IsIns i) (hb : insBytes = inss.flatten) :
    parseToNumericalSteps insBytes = .ok (specNumericalSteps inss true) := by
  obtain ⟨bounds, hcb, hchain⟩ := computeBufferBounds_good inss insBytes 4096 hne hall hb
    (by norm_num)
  obtain ⟨Q, hQne, hQall, hQf, hparse⟩ := parseChunks_spec 4096 insBytes bounds 0 true [] hchain
  have hQ : Q = inss := by
    apply streams_unique Q inss hQall hall
    rw [← hQf, List.drop_zero, hb]
  subst hQ
  simp only [parseToNumericalSteps, hcb]
  rw [hparse]
  simp

/-- C6 witness: the scenario-S2 instance.  On the 12-byte two-instruction
pen-op stream, `parse_to_numerical_steps` returns
`[(0x0A0B, 0x2A3A, true), (0x0A0B, 0x2A3A, false)]`. -/
theorem c6_parse_numerical_steps_witness :
    parseToNumericalSteps stream12 = .ok [(0x0A0B, 0x2A3A, true), (0x0A0B, 0x2A3A, false)] := by
  have h6a : IsIns [0x0A, 0x0B, 0x2A, 0x3A, 0x0A, 0x0C] :=
    Or.inr ⟨0x0A, 0x0B, 0x2A, 0x3A, 0x0A, by norm_num, by norm_num, by norm_num, by norm_num,
      Or.inl rfl, rfl⟩
  have h6b : IsIns [0x0A, 0x0B, 0x2A, 0x3A, 0x0B, 0x0C] :=
    Or.inr ⟨0x0A, 0x0B, 0x2A, 0x3A, 0x0B, by norm_num, by norm_num, by norm_num, by norm_num,
      Or.inr rfl, rfl⟩
  have h := c6_parse_numerical_steps
    [[0x0A, 0x0B, 0x2A, 0x3A, 0x0A, 0x0C], [0x0A, 0x0B, 0x2A, 0x3A, 0x0B, 0x0C]] stream12
    (by simp)
    (by
      intro i hi
      simp at hi
      rcases hi with rfl | rfl
      · exact h6a
      · exact h6b)
    (by decide)
  rw [h]
  decide

/-- C8 (corrected, floats modelled as reals): immediately after a
successful non-first `sample_xy` whose two rounded step counts both
differ from `i16::MIN = -32768`, `pop_sample` succeeds and restores the
surface exactly — the instruction bytes byte-for-byte, and the belt
lengths exactly in the real-number model (hence within floating-point
epsilon); and `pop_sample` on a surface with no emitted instructions
fails with the empty-pop error and modifies nothing.  The claim's
unconditional belt restoration is false: a rounded count of exactly
`i16::MIN` still passes the strict overflow guard (any float delta in
`(-32768, -32767.5]` rounds half-away-from-zero to it), and the `i16`
negations in `move_by_steps(ls, -rs)` and
`move_by_steps(-left_steps, right_steps)` then wrap (release builds;
debug builds panic), so the corresponding belt is moved further instead
of restored. -/
theorem c8_pop_sample_left_inverse (ds : DrawSurface) (x y fx fy : ℝ)
    (h1 : ds.firstSampleX = some fx) (h2 : ds.firstSampleY = some fy)
    (hwl : rustRound (deltaSteps ds x y).1 ≠ -32768)
    (hwr : rustRound (deltaSteps ds x y).2 ≠ -32768)
    (ds2 : DrawSurface) (hs : sampleXY ds x y = (none, ds2)) :
    popSample ds2 = (none, ds) ∧
    ∀ e : DrawSurface, e.currentIns = [] → popSample e = (some .emptyPop, e) := by
  refine ⟨?_, fun e he => by simp [popSample, he]⟩
  obtain ⟨fsx, fsy, ci0, pd, L, R, S, rfl⟩ :
      ∃ a b c d p q r, ds = ⟨a, b, c, d, ⟨p, q, r⟩⟩ :=
    ⟨ds.firstSampleX, ds.firstSampleY, ds.currentIns, ds.physicalDimensions,
      ds.belts.leftBeltLength, ds.belts.rightBeltLength, ds.belts.motorInterspace, rfl⟩
  have hnn : ((⟨fsx, fsy, ci0, pd, ⟨L, R, S⟩⟩ : DrawSurface).firstSampleX.isNone ||
      (⟨fsx, fsy, ci0, pd, ⟨L, R, S⟩⟩ : DrawSurface).firstSampleY.isNone) = false := by
    rw [h1, h2]
    rfl
  set ds0 : DrawSurface := ⟨fsx, fsy, ci0, pd, ⟨L, R, S⟩⟩ with hds0
  by_cases hov : (deltaSteps ds0 x y).1 ≥ 32767 ∨ (deltaSteps ds0 x y).1 ≤ -32768 ∨
      (deltaSteps ds0 x y).2 ≥ 32767 ∨ (deltaSteps ds0 x y).2 ≤ -32768
  · have hres : sampleXY ds0 x y = (some .stepOverflow, ds0) := by
      simp only [sampleXY, hnn, Bool.false_eq_true, if_false]
      rw [if_pos hov]
    rw [hres] at hs
    exact absurd (congrArg Prod.fst hs) (by simp)
  · have hres : sampleXY ds0 x y =
        (none,
          { ds0 with
            belts := ds0.belts.moveBySteps (rustRound (deltaSteps ds0 x y).1)
              (i16Neg (rustRound (deltaSteps ds0 x y).2))
            currentIns := ds0.currentIns ++ i16Bytes (rustRound (deltaSteps ds0 x y).1) ++
              i16Bytes (rustRound (deltaSteps ds0 x y).2) ++ [0x0C] }) := by
      simp only [sampleXY, hnn, Bool.false_eq_true, if_false]
      rw [if_neg hov]
    rw [hres] at hs
    simp only [Prod.mk.injEq, true_and] at hs
    subst hs
    push_neg at hov
    obtain ⟨hl1, hl2, hr1, hr2⟩ := hov
    set ls : Int := rustRound (deltaSteps ds0 x y).1 with hls
    set rs : Int := rustRound (deltaSteps ds0 x y).2 with hrs
    have hlsr := rustRound_range _ hl2 hl1
    have hrsr := rustRound_range _ hr2 hr1
    have hnegl : i16Neg ls = -ls := by
      unfold i16Neg
      rw [if_neg hwl]
    have hnegr : i16Neg rs = -rs := by
      unfold i16Neg
      rw [if_neg hwr]
    have hbl : (i16Bytes ls).length = 2 := by simp [i16Bytes]
    have hbr : (i16Bytes rs).length = 2 := by simp [i16Bytes]
    have hassoc : ci0 ++ i16Bytes ls ++ i16Bytes rs ++ [0x0C] =
        ci0 ++ (i16Bytes ls ++ (i16Bytes rs ++ [0x0C])) := by
      simp
    have hrlen : (i16Bytes ls ++ (i16Bytes rs ++ [0x0C])).length = 5 := by
      simp [hbl, hbr]
    have hlen : (ci0 ++ i16Bytes ls ++ i16Bytes rs ++ [0x0C]).length = ci0.length + 5 := by
      rw [hassoc]
      simp [hrlen]
    have hidx : (ci0 ++ i16Bytes ls ++ i16Bytes rs ++ [0x0C]).length - 5 = ci0.length := by
      omega
    have hgd : ∀ j : Nat, (ci0 ++ i16Bytes ls ++ i16Bytes rs ++ [0x0C]).getD (ci0.length + j) 0 =
        (i16Bytes ls ++ (i16Bytes rs ++ [0x0C])).getD j 0 := by
      intro j
      rw [hassoc, getD_append_right _ _ _ (by omega)]
      congr 1
      omega
    have e0 : (i16Bytes ls ++ (i16Bytes rs ++ [0x0C])).getD 0 0 = (i16Bytes ls).getD 0 0 :=
      getD_append_left _ _ _ (by omega)
    have e1 : (i16Bytes ls ++ (i16Bytes rs ++ [0x0C])).getD 1 0 = (i16Bytes ls).getD 1 0 :=
      getD_append_left _ _ _ (by omega)
    have e2 : (i16Bytes ls ++ (i16Bytes rs ++ [0x0C])).getD 2 0 = (i16Bytes rs).getD 0 0 := by
      rw [getD_append_right _ _ _ (by omega), hbl, getD_append_left _ _ _ (by omega)]
    have e3 : (i16Bytes ls ++ (i16Bytes rs ++ [0x0C])).getD 3 0 = (i16Bytes rs).getD 1 0 := by
      rw [getD_append_right _ _ _ (by omega), hbl, getD_append_left _ _ _ (by omega)]
    have hlt5 : ¬ ((ci0 ++ i16Bytes ls ++ i16Bytes rs ++ [0x0C]).length < 5) := by omega
    simp only [popSample]
    rw [if_neg hlt5]
    have i5 : (ci0 ++ i16Bytes ls ++ i16Bytes rs ++ [0x0C]).length - 5 = ci0.length + 0 := by
      omega
    have i4 : (ci0 ++ i16Bytes ls ++ i16Bytes rs ++ [0x0C]).length - 4 = ci0.length + 1 := by
      omega
    have i3 : (ci0 ++ i16Bytes ls ++ i16Bytes rs ++ [0x0C]).length - 3 = ci0.length + 2 := by
      omega
    have i2 : (ci0 ++ i16Bytes ls ++ i16Bytes rs ++ [0x0C]).length - 2 = ci0.length + 3 := by
      omega
    simp only [hds0]
    simp only [i5, i4, i3, i2, hgd, e0, e1, e2, e3,
      toI16_i16Bytes ls hlsr.1 hlsr.2, toI16_i16Bytes rs hrsr.1 hrsr.2]
    have htake : (ci0 ++ i16Bytes ls ++ i16Bytes rs ++ [0x0C]).take (ci0.length + 0) = ci0 := by
      rw [hassoc]
      exact List.take_left ci0 _
    rw [htake]
    simp only [hnegl, hnegr, Prod.mk.injEq, DrawSurface.mk.injEq, Belts.mk.injEq,
      Belts.moveBySteps, stepsToMm, eq_self_iff_true, true_and, and_true]
    constructor
    · push_cast
      ring
    · push_cast
      ring

/-- C8 counterexample: the claim's unconditional belt restoration fails
at `i16::MIN`.  On `surfaceMin` the call `sample_xy(3, 4)` succeeds, its
left float delta `-32767.6` rounding half-away-from-zero to exactly
`i16::MIN = -32768` while still passing the strict overflow guard; the
following `pop_sample` decodes the left step pair back to `-32768`, the
source's `i16` negation in `move_by_steps(-left_steps, right_steps)`
wraps (a debug build panics instead), and the left belt moves by a
second batch of `-32768` steps — ending `2 · 32768 / steps_per_mm ≈
812.9` millimetres shorter than its pre-sample length instead of being
restored to it (the fourth conjunct shows each batch is strictly
negative). -/
theorem c8_i16_min_not_restored :
    (sampleXY surfaceMin 3 4).1 = none ∧
    rustRound (deltaSteps surfaceMin 3 4).1 = -32768 ∧
    (popSample (sampleXY surfaceMin 3 4).2).2.belts.leftBeltLength =
      surfaceMin.belts.leftBeltLength + stepsToMm (-32768) + stepsToMm (-32768) ∧
    stepsToMm (-32768) < 0 := by
  have hspm := stepsPerMm_pos
  have hd : deltaSteps surfaceMin 3 4 = (-32767.6, 0) := by
    unfold deltaSteps surfaceMin dims0
    simp only [cartesianToBelt_345, Prod.mk.injEq]
    constructor
    · rw [sub_add_cancel_left, neg_mul, div_mul_cancel₀ _ (ne_of_gt hspm)]
    · rw [sub_self, zero_mul, neg_zero]
  have hls : rustRound ((-32767.6 : ℝ)) = -32768 := by
    unfold rustRound
    rw [if_neg (by norm_num : ¬ (0 : ℝ) ≤ -32767.6)]
    have h1 : -(-32767.6 : ℝ) + 1 / 2 = 32768.1 := by norm_num
    rw [h1]
    have h2 : ⌊(32768.1 : ℝ)⌋ = 32768 :=
      Int.floor_eq_iff.mpr ⟨by push_cast; norm_num, by push_cast; norm_num⟩
    rw [h2]
  have hrs : rustRound ((0 : ℝ)) = 0 := by
    unfold rustRound
    rw [if_pos le_rfl]
    have h2 : ⌊(0 : ℝ) + 1 / 2⌋ = 0 :=
      Int.floor_eq_iff.mpr ⟨by push_cast; norm_num, by push_cast; norm_num⟩
    rw [h2]
  have hnov : ¬ ((deltaSteps surfaceMin 3 4).1 ≥ 32767 ∨ (deltaSteps surfaceMin 3 4).1 ≤ -32768 ∨
      (deltaSteps surfaceMin 3 4).2 ≥ 32767 ∨ (deltaSteps surfaceMin 3 4).2 ≤ -32768) := by
    rw [hd]
    push_neg
    refine ⟨by norm_num, by norm_num, by norm_num, by norm_num⟩
  have hnn : (surfaceMin.firstSampleX.isNone || surfaceMin.firstSampleY.isNone) = false := rfl
  have hres : sampleXY surfaceMin 3 4 =
      (none,
        { surfaceMin with
          belts := surfaceMin.belts.moveBySteps (rustRound (deltaSteps surfaceMin 3 4).1)
            (i16Neg (rustRound (deltaSteps surfaceMin 3 4).2))
          currentIns := surfaceMin.currentIns ++ i16Bytes (rustRound (deltaSteps surfaceMin 3 4).1) ++
            i16Bytes (rustRound (deltaSteps surfaceMin 3 4).2) ++ [0x0C] }) := by
    simp only [sampleXY, hnn, Bool.false_eq_true, if_false]
    rw [if_neg hnov]
  have hd1 : rustRound (deltaSteps surfaceMin 3 4).1 = -32768 := by
    rw [hd]
    exact hls
  have hd2 : rustRound (deltaSteps surfaceMin 3 4).2 = 0 := by
    rw [hd]
    exact hrs
  have hneg0 : i16Neg (0 : Int) = 0 := by
    unfold i16Neg
    norm_num
  have hb1 : i16Bytes (-32768 : Int) = [128, 0] := by decide
  have hb0 : i16Bytes (0 : Int) = [0, 0] := by decide
  have hci : surfaceMin.currentIns = ([] : List Nat) := rfl
  rw [hd1, hd2, hneg0, hb1, hb0, hci] at hres
  simp only [List.nil_append, List.cons_append] at hres
  refine ⟨by rw [hres], hd1, ?_, ?_⟩
  · rw [hres]
    rfl
  · unfold stepsToMm
    apply div_neg_of_neg_of_pos
    · norm_num
    · exact stepsPerMm_pos

/-- C8 witness: on `surface0` the call `sample_xy(3, 4)` succeeds (the
left delta is `steps_per_mm ≈ 80.6` steps, the right delta 0, both
rounding far from `i16::MIN`), and `pop_sample` restores `surface0`
exactly; popping `surface0` itself — it has no instruction bytes — fails
with the empty-pop error. -/
theorem c8_pop_sample_left_inverse_witness :
    popSample (sampleXY surface0 3 4).2 = (none, surface0) ∧
    popSample surface0 = (some .emptyPop, surface0) := by
  have hspm := stepsPerMm_pos
  have hlt := stepsPerMm_lt_100
  have hd : deltaSteps surface0 3 4 = (stepsPerMm, 0) := by
    unfold deltaSteps surface0 dims0
    simp only [cartesianToBelt_345, Prod.mk.injEq]
    constructor
    · norm_num
    · rw [sub_self, zero_mul, neg_zero]
  have hnov : ¬ ((deltaSteps surface0 3 4).1 ≥ 32767 ∨ (deltaSteps surface0 3 4).1 ≤ -32768 ∨
      (deltaSteps surface0 3 4).2 ≥ 32767 ∨ (deltaSteps surface0 3 4).2 ≤ -32768) := by
    rw [hd]
    push_neg
    refine ⟨by linarith, by linarith, by norm_num, by norm_num⟩
  have hwl : rustRound (deltaSteps surface0 3 4).1 ≠ -32768 := by
    simp only [hd]
    unfold rustRound
    rw [if_pos (le_of_lt hspm)]
    have hnn0 : (0 : Int) ≤ ⌊stepsPerMm + 1 / 2⌋ := Int.le_floor.mpr (by push_cast; linarith)
    omega
  have hwr : rustRound (deltaSteps surface0 3 4).2 ≠ -32768 := by
    simp only [hd]
    unfold rustRound
    rw [if_pos le_rfl]
    have hnn0 : (0 : Int) ≤ ⌊(0 : ℝ) + 1 / 2⌋ := Int.le_floor.mpr (by push_cast; norm_num)
    omega
  have hnn : (surface0.firstSampleX.isNone || surface0.firstSampleY.isNone) = false := rfl
  have hfst : (sampleXY surface0 3 4).1 = none := by
    simp only [sampleXY, hnn, Bool.false_eq_true, if_false]
    rw [if_neg hnov]
  have hsucc : sampleXY surface0 3 4 = (none, (sampleXY surface0 3 4).2) :=
    Prod.ext hfst rfl
  obtain ⟨hmain, hempty⟩ :=
    c8_pop_sample_left_inverse surface0 3 4 0 0 rfl rfl hwl hwr _ hsucc
  exact ⟨hmain, hempty surface0 rfl⟩

/-- C9 (confirmed, floats modelled as reals): for `0 < x < s` and
`0 < y`, `belt_to_cartesian` inverts `cartesian_to_belt` — exactly, in
the real-number model, hence in particular within floating-point epsilon
as claimed. -/
theorem c9_kinematics_round_trip (x y s : ℝ) (hx : 0 < x) (hxs : x < s) (hy : 0 < y) :
    beltToCartesian (cartesianToBelt x y s).1 (cartesianToBelt x y s).2 s = (x, y) := by
  have hs : (0 : ℝ) < s := lt_trans hx hxs
  have hL : (cartesianToBelt x y s).1 ^ 2 = x ^ 2 + y ^ 2 := by
    simpa [cartesianToBelt] using Real.sq_sqrt (by positivity : (0 : ℝ) ≤ x ^ 2 + y ^ 2)
  have hR : (cartesianToBelt x y s).2 ^ 2 = (s - x) ^ 2 + y ^ 2 := by
    simpa [cartesianToBelt] using
      Real.sq_sqrt (by positivity : (0 : ℝ) ≤ (s - x) ^ 2 + y ^ 2)
  have hxeq : (s ^ 2 + (cartesianToBelt x y s).1 ^ 2 - (cartesianToBelt x y s).2 ^ 2) /
      (2 * s) = x := by
    rw [hL, hR]
    field_simp
    ring
  unfold beltToCartesian
  simp only [hxeq]
  have hyeq : Real.sqrt ((cartesianToBelt x y s).1 ^ 2 - x ^ 2) = y := by
    rw [hL]
    have : x ^ 2 + y ^ 2 - x ^ 2 = y ^ 2 := by ring
    rw [this, Real.sqrt_sq hy.le]
  rw [hyeq]

/-- C9 witness: the round trip at the concrete reachable configuration
`x = 3`, `y = 4`, `s = 5`. -/
theorem c9_kinematics_round_trip_witness :
    beltToCartesian (cartesianToBelt 3 4 5).1 (cartesianToBelt 3 4 5).2 5 = (3, 4) :=
  c9_kinematics_round_trip 3 4 5 (by norm_num) (by norm_num) (by norm_num)

end BlotBot
